import Mathlib

/-!
Verification of the text-diff engine: a shallow embedding of the diff
computation and reconciliation core (LCS line alignment, Levenshtein-based
similarity scoring, modification detection, inline diffing, the JSON diff
tree builder, and the merge reconciler), together with theorems checking
the specification's claims against it.

Strings from the source are modelled as `List Char` (`Str`); JavaScript
numbers as exact rationals `ℚ`; `null`/`undefined` as `Option.none`.
-/

abbrev Str := List Char

/-- The four classification kinds of a line-level diff entry. -/
inductive DiffType where
  | unchanged
  | added
  | removed
  | modified
deriving DecidableEq, Repr, Inhabited

/-- One line-level diff entry, as built by `backtrackDiff` and
`detectModifications`.  Fields absent on a given JS object are `none`
(only `modified` entries carry a `similarity`). -/
structure DiffEntry where
  type : DiffType
  leftLine : Option Nat
  rightLine : Option Nat
  leftContent : Option Str
  rightContent : Option Str
  similarity : Option ℚ := none
deriving DecidableEq, Repr, Inhabited

/-- `computeLCS` (css-diff engine): the DP matrix of LCS lengths.
`computeLCS a b i j` is the value `dp[i][j]` of the (m+1)x(n+1) matrix the
source fills: 0 on the first row and column, and for `i+1, j+1` either
`dp[i][j] + 1` on equal elements or `max (dp[i][j+1]) (dp[i+1][j])`. -/
def computeLCS (a b : List Str) : Nat → Nat → Nat
  | 0, _ => 0
  | _ + 1, 0 => 0
  | i + 1, j + 1 =>
    if a.getD i [] = b.getD j [] then computeLCS a b i j + 1
    else max (computeLCS a b i (j + 1)) (computeLCS a b (i + 1) j)

/-- The backtracking walk of `backtrackDiff`, from position `(i, j)` down to
`(0, 0)`.  The source `unshift`s each produced entry onto the front of the
result array and then decreases the indices, so the entry produced at `(i, j)`
ends up last: the walk at `(i, j)` is the walk at the predecessor position
followed by that entry. -/
def backtrackAux (dp : Nat → Nat → Nat) (a b : List Str) (i j : Nat) :
    List DiffEntry :=
  if i = 0 ∧ j = 0 then []
  else if 0 < i ∧ 0 < j ∧ a.getD (i - 1) [] = b.getD (j - 1) [] then
    backtrackAux dp a b (i - 1) (j - 1) ++
      [⟨.unchanged, some i, some j, some (a.getD (i - 1) []),
        some (b.getD (j - 1) []), none⟩]
  else if 0 < j ∧ (i = 0 ∨ dp i (j - 1) ≥ dp (i - 1) j) then
    backtrackAux dp a b i (j - 1) ++
      [⟨.added, none, some j, none, some (b.getD (j - 1) []), none⟩]
  else
    backtrackAux dp a b (i - 1) j ++
      [⟨.removed, some i, none, some (a.getD (i - 1) []), none, none⟩]
termination_by i + j
decreasing_by
  · omega
  · omega
  · rename_i h0 h1 h2
    rw [Decidable.not_and_iff_or_not] at h0
    rcases Nat.eq_zero_or_pos i with hi | hi
    · exact absurd ⟨by omega, Or.inl hi⟩ h2
    · omega

/-- `backtrackDiff dp a b`: backtrack through the LCS matrix from
`(a.length, b.length)` to recover the raw diff script. -/
def backtrackDiff (dp : Nat → Nat → Nat) (a b : List Str) : List DiffEntry :=
  backtrackAux dp a b a.length b.length

/-- The left-side reconstruction of a diff script: the `leftContent` of its
`unchanged` and `removed` entries, in output order. -/
def leftSide (d : List DiffEntry) : List Str :=
  d.filterMap fun e => match e.type with
    | .unchanged => e.leftContent
    | .removed => e.leftContent
    | _ => none

/-- The right-side reconstruction of a diff script: the `rightContent` of its
`unchanged` and `added` entries, in output order. -/
def rightSide (d : List DiffEntry) : List Str :=
  d.filterMap fun e => match e.type with
    | .unchanged => e.rightContent
    | .added => e.rightContent
    | _ => none

theorem leftSide_append (d d' : List DiffEntry) :
    leftSide (d ++ d') = leftSide d ++ leftSide d' :=
  List.filterMap_append ..

theorem rightSide_append (d d' : List DiffEntry) :
    rightSide (d ++ d') = rightSide d ++ rightSide d' :=
  List.filterMap_append ..

theorem take_getD {α : Type} (l : List α) (k : Nat) (dflt : α) (h : k < l.length) :
    l.take (k + 1) = l.take k ++ [l.getD k dflt] := by
  rw [List.take_succ, List.getD_eq_getElem?_getD]
  have : l[k]? = some l[k] := List.getElem?_eq_getElem h
  simp [this]

/-- Round-trip property of the backtracking walk: from position `(i, j)` the
walk's left side reconstructs the first `i` lines of `a` and its right side the
first `j` lines of `b`, for any matrix `dp`. -/
theorem backtrackAux_take (dp : Nat → Nat → Nat) (a b : List Str) :
    ∀ n i j, i + j ≤ n → i ≤ a.length → j ≤ b.length →
      leftSide (backtrackAux dp a b i j) = a.take i ∧
      rightSide (backtrackAux dp a b i j) = b.take j := by
  intro n
  induction n with
  | zero =>
    intro i j hn _ _
    have hi : i = 0 := by omega
    have hj : j = 0 := by omega
    subst hi; subst hj
    rw [backtrackAux]
    simp [leftSide, rightSide]
  | succ n ih =>
    intro i j hn ha hb
    rw [backtrackAux]
    by_cases h0 : i = 0 ∧ j = 0
    · simp [h0, leftSide, rightSide]
    · rw [if_neg h0]
      by_cases h1 : 0 < i ∧ 0 < j ∧ a.getD (i - 1) [] = b.getD (j - 1) []
      · rw [if_pos h1]
        obtain ⟨hi, hj, _⟩ := h1
        have hrec := ih (i - 1) (j - 1) (by omega) (by omega) (by omega)
        rw [leftSide_append, rightSide_append, hrec.1, hrec.2]
        constructor
        · have : a.take (i - 1) ++ [a.getD (i - 1) []] = a.take (i - 1 + 1) :=
            (take_getD a (i - 1) [] (by omega)).symm
          simpa [leftSide, Nat.sub_add_cancel hi] using this
        · have : b.take (j - 1) ++ [b.getD (j - 1) []] = b.take (j - 1 + 1) :=
            (take_getD b (j - 1) [] (by omega)).symm
          simpa [rightSide, Nat.sub_add_cancel hj] using this
      · rw [if_neg h1]
        by_cases h2 : 0 < j ∧ (i = 0 ∨ dp i (j - 1) ≥ dp (i - 1) j)
        · rw [if_pos h2]
          obtain ⟨hj, _⟩ := h2
          have hrec := ih i (j - 1) (by omega) ha (by omega)
          rw [leftSide_append, rightSide_append, hrec.1, hrec.2]
          constructor
          · simp [leftSide]
          · have : b.take (j - 1) ++ [b.getD (j - 1) []] = b.take (j - 1 + 1) :=
              (take_getD b (j - 1) [] (by omega)).symm
            simpa [rightSide, Nat.sub_add_cancel hj] using this
        · rw [if_neg h2]
          have hi : 0 < i := by
            rcases Nat.eq_zero_or_pos i with hz | hp
            · exfalso
              have hjpos : 0 < j := by omega
              exact h2 ⟨hjpos, Or.inl hz⟩
            · exact hp
          have hrec := ih (i - 1) j (by omega) (by omega) hb
          rw [leftSide_append, rightSide_append, hrec.1, hrec.2]
          constructor
          · have : a.take (i - 1) ++ [a.getD (i - 1) []] = a.take (i - 1 + 1) :=
              (take_getD a (i - 1) [] (by omega)).symm
            simpa [leftSide, Nat.sub_add_cancel hi] using this
          · simp [rightSide]

/-- C1: For every pair of line sequences `a` and `b`, the raw alignment
produced by LCS backtracking satisfies the round-trip law: the right-side
content of its `unchanged` and `added` entries, concatenated in output order,
is exactly `b`, and the left-side content of its `unchanged` and `removed`
entries is exactly `a`. -/
theorem lcs_alignment_round_trip (a b : List Str) :
    rightSide (backtrackDiff (computeLCS a b) a b) = b ∧
    leftSide (backtrackDiff (computeLCS a b) a b) = a := by
  have h := backtrackAux_take (computeLCS a b) a b (a.length + b.length)
    a.length b.length le_rfl le_rfl le_rfl
  unfold backtrackDiff
  rw [h.1, h.2, List.take_length, List.take_length]
  exact ⟨rfl, rfl⟩

/-! ### Similarity scorer (`levenshteinDistance`, `similarityRatio`, `areSimilar`) -/

/-- One row of the Levenshtein DP matrix is a function from column index to
cell value.  `levCell a b i prevRow` is row `i+1`, computed from row `i`
(`prevRow`) exactly as the source's inner loop fills it: cell `(i+1, 0)` is
`i+1`; cell `(i+1, j+1)` is the diagonal on equal characters
(`b.charAt(i) === a.charAt(j)`), else `1 +` the minimum of substitution
(diagonal), insertion (left neighbour) and deletion (upper neighbour). -/
def levCell (a b : Str) (i : Nat) (prevRow : Nat → Nat) : Nat → Nat
  | 0 => i + 1
  | j + 1 =>
    if b.getD i ' ' = a.getD j ' ' then prevRow j
    else min (prevRow j + 1) (min (levCell a b i prevRow j + 1) (prevRow (j + 1) + 1))

/-- Row `i` of the Levenshtein matrix of the source's `levenshteinDistance`:
row 0 is `j ↦ j`, and each following row is filled from the previous one. -/
def levRow (a b : Str) : Nat → (Nat → Nat)
  | 0 => fun j => j
  | i + 1 => levCell a b i (levRow a b i)

/-- `matrix[i][j]` of the source's `levenshteinDistance` (rows indexed by `b`,
columns by `a`). -/
def levMatrix (a b : Str) (i j : Nat) : Nat :=
  levRow a b i j

/-- `levenshteinDistance`: the early returns on empty inputs, else the bottom
right cell `matrix[b.length][a.length]` of the DP matrix. -/
def levenshteinDistance (a b : Str) : Nat :=
  if a.length = 0 then b.length
  else if b.length = 0 then a.length
  else levMatrix a b b.length a.length

/-- `similarityRatio`: `1` when both strings are empty (JS falsy check),
`0` when exactly one is, else `1 - distance / maxLen`. -/
def similarityRatio (a b : Str) : ℚ :=
  if a = [] ∧ b = [] then 1
  else if a = [] ∨ b = [] then 0
  else
    let maxLen := max a.length b.length
    if maxLen = 0 then 1
    else 1 - (levenshteinDistance a b : ℚ) / (maxLen : ℚ)

/-- The character class of the JavaScript regex `\s` (whitespace). -/
def isSpaceChar (c : Char) : Bool :=
  c = ' ' || c = '\t' || c = '\n' || c = '\r' || c = '\x0b' || c = '\x0c' ||
  c = '\u00a0' || c = '\u1680' || ('\u2000' ≤ c && c ≤ '\u200a') ||
  c = '\u2028' || c = '\u2029' || c = '\u202f' || c = '\u205f' || c = '\u3000' ||
  c = '\ufeff'

/-- `String.prototype.trim`: drop whitespace from both ends. -/
def trimChars (s : Str) : Str :=
  ((s.dropWhile isSpaceChar).reverse.dropWhile isSpaceChar).reverse

/-- `replace(/\s+/g, ' ')`: every maximal whitespace run becomes one space.
`inRun` records whether the previous character belonged to a whitespace run
(so only the first character of each run emits the space). -/
def collapseAux (inRun : Bool) : Str → Str
  | [] => []
  | c :: rest =>
    if isSpaceChar c then
      if inRun then collapseAux true rest
      else ' ' :: collapseAux true rest
    else c :: collapseAux false rest

/-- `replace(/\s+/g, ' ')` on a whole string. -/
def collapseWS (s : Str) : Str :=
  collapseAux false s

/-- The whitespace normalization `a.trim().replace(/\s+/g, ' ')` that
`areSimilar` applies before comparing. -/
def normalizeWS (s : Str) : Str :=
  collapseWS (trimChars s)

/-- The character class `[a-z-]` of the property-name regex, with the `i`
flag (case-insensitive). -/
def isPropChar (c : Char) : Bool :=
  ('a' ≤ c && c ≤ 'z') || ('A' ≤ c && c ≤ 'Z') || c = '-'

/-- The match `normX.match(/^\s*([a-z-]+)\s*:/i)?.[1]?.toLowerCase()`:
skip leading whitespace, take a nonempty run of letters/hyphens, skip
whitespace, and require a colon; the captured name lowercased.  (The regex
is anchored and its pieces use disjoint character classes, so greedy
matching without backtracking is exact.) -/
def matchPropName (s : Str) : Option Str :=
  let rest := s.dropWhile isSpaceChar
  let name := rest.takeWhile isPropChar
  let rest2 := (rest.dropWhile isPropChar).dropWhile isSpaceChar
  if name ≠ [] ∧ rest2.head? = some ':' then some (name.map Char.toLower) else none

/-- The match `normX.match(/^([^{]+)\s*\{/)?.[1]?.trim()`: everything before
the first `\x7b` (which must exist, with at least one character before it),
trimmed.  (`[^{]+` max-munches up to the first brace, so `\s*` matches the
empty string.) -/
def matchSelector (s : Str) : Option Str :=
  let pre := s.takeWhile (fun c => c ≠ '\x7b')
  if pre ≠ [] ∧ (s.dropWhile (fun c => c ≠ '\x7b')).head? = some '\x7b' then
    some (trimChars pre)
  else none

/-- The `{ similar, ratio }` object returned by `areSimilar`. -/
structure SimResult where
  similar : Bool
  ratio : ℚ
deriving DecidableEq, Repr

/-- `areSimilar a b threshold` (default threshold 0.4): falsy guard, whitespace
normalization, exact-match short-circuit, empty-after-normalization guard,
base similarity, then the CSS boosts (shared property name to ≥ 0.6; shared
selector with > 0.7 similarity to ≥ 0.65; both closing braces forced to 1;
shared prefix of length `min 10 (min |a| |b|) > 3` to ≥ 0.5), and finally
`similar = ratio ≥ threshold`. -/
def areSimilar (a b : Option Str) (threshold : ℚ := 0.4) : SimResult :=
  if a = none ∨ a = some [] ∨ b = none ∨ b = some [] then ⟨false, 0⟩
  else
    let normA := normalizeWS (a.getD [])
    let normB := normalizeWS (b.getD [])
    if normA = normB then ⟨true, 1⟩
    else if normA = [] ∨ normB = [] then ⟨false, 0⟩
    else
      let ratio0 := similarityRatio normA normB
      let ratio1 :=
        match matchPropName normA, matchPropName normB with
        | some pa, some pb => if pa = pb then max ratio0 0.6 else ratio0
        | _, _ => ratio0
      let ratio2 :=
        match matchSelector normA, matchSelector normB with
        | some sa, some sb =>
          if sa ≠ [] ∧ sb ≠ [] ∧ similarityRatio sa sb > 0.7 then
            max ratio1 0.65
          else ratio1
        | _, _ => ratio1
      if normA = ['\x7d'] ∧ normB = ['\x7d'] then ⟨true, 1⟩
      else
        let plen := min 10 (min normA.length normB.length)
        let ratio3 :=
          if 3 < plen ∧ normA.take plen = normB.take plen then max ratio2 0.5
          else ratio2
        ⟨decide (ratio3 ≥ threshold), ratio3⟩

/-! ### C8: laws of `similarityRatio` -/

/-- The diagonal of the Levenshtein matrix of a string against itself is 0. -/
theorem levMatrix_diag (a : Str) : ∀ k, levMatrix a a k k = 0 := by
  intro k
  induction k with
  | zero => rfl
  | succ k ih =>
    show levCell a a k (levRow a a k) (k + 1) = 0
    simp only [levCell, if_pos rfl]
    exact ih

/-- `levenshteinDistance a a = 0` for every string `a`. -/
theorem levenshteinDistance_self (a : Str) : levenshteinDistance a a = 0 := by
  unfold levenshteinDistance
  by_cases h : a.length = 0
  · simp [h]
  · simp [h, levMatrix_diag]

/-- C8: the similarity function satisfies `similarity(a, a) = 1` for every
string `a`, `similarity("", "") = 1`, and `similarity("", x) = 0`
(and symmetrically `similarity(x, "") = 0`) for every non-empty `x`. -/
theorem similarityRatio_laws (a x : Str) (hx : x ≠ []) :
    similarityRatio a a = 1 ∧ similarityRatio [] [] = 1 ∧
    similarityRatio [] x = 0 ∧ similarityRatio x [] = 0 := by
  refine ⟨?_, by simp [similarityRatio], by simp [similarityRatio, hx], by simp [similarityRatio, hx]⟩
  by_cases ha : a = []
  · simp [similarityRatio, ha]
  · have hlen : a.length ≠ 0 := by simpa [List.length_eq_zero] using ha
    simp [similarityRatio, ha, hlen, levenshteinDistance_self]

/-- Witness for C8 at `a = "ab"`, `x = "c"`. -/
theorem similarityRatio_laws_witness :
    ('c' :: [] ≠ ([] : Str)) ∧
    (similarityRatio ['a', 'b'] ['a', 'b'] = 1 ∧ similarityRatio [] [] = 1 ∧
     similarityRatio [] ['c'] = 0 ∧ similarityRatio ['c'] [] = 0) :=
  ⟨by decide, similarityRatio_laws ['a', 'b'] ['c'] (by decide)⟩

/-! ### C7: the shared-prefix floor of `areSimilar`

The claim states the ≥ 0.5 floor for every pair of non-empty normalized lines
whose first `min 10 (min |a| |b|)` characters agree.  The source applies the
boost only when that length exceeds 3 (`prefixLen > 3`), so the claim fails
for very short lines; with the length condition added it holds. -/

/-- Counterexample to C7 as stated: `a = "a"` and `b = "abb"` are non-empty,
normalized, and agree on their first `min 10 (min 1 3) = 1` characters, yet
`areSimilar` computes ratio `1/3 < 0.5` and judges them not similar at the
default 0.4 threshold (the boost needs a shared prefix longer than 3). -/
theorem areSimilar_prefix_floor_cex :
    normalizeWS ['a'] = ['a'] ∧ normalizeWS ['a', 'b', 'b'] = ['a', 'b', 'b'] ∧
    (['a'] : Str) ≠ [] ∧ (['a', 'b', 'b'] : Str) ≠ [] ∧
    (['a'] : Str).take (min 10 (min (['a'] : Str).length (['a', 'b', 'b'] : Str).length)) =
      (['a', 'b', 'b'] : Str).take (min 10 (min (['a'] : Str).length (['a', 'b', 'b'] : Str).length)) ∧
    (areSimilar (some ['a']) (some ['a', 'b', 'b'])).ratio < 0.5 ∧
    (areSimilar (some ['a']) (some ['a', 'b', 'b'])).similar = false := by
  have hlev : levenshteinDistance ['a'] ['a', 'b', 'b'] = 2 := by decide
  have hsim : areSimilar (some ['a']) (some ['a', 'b', 'b']) = ⟨false, 1 - 2 / 3⟩ := by
    simp [areSimilar, normalizeWS, collapseWS, collapseAux, trimChars, isSpaceChar,
      matchPropName, matchSelector, isPropChar, similarityRatio, hlev]
    norm_num
  refine ⟨by decide, by decide, by decide, by decide, by decide, ?_, ?_⟩
  · rw [hsim]
    norm_num
  · rw [hsim]

/-- C7 (amended): for every pair of non-empty normalized lines `a` and `b`
whose first `min 10 (min |a| |b|)` characters are identical, *provided that
length exceeds 3* (the source's `prefixLen > 3` guard), `areSimilar` computes
a ratio of at least 0.5, so with the default 0.4 threshold the pair is judged
similar. -/
theorem areSimilar_prefix_floor (a b : Str)
    (hna : normalizeWS a = a) (hnb : normalizeWS b = b)
    (ha : a ≠ []) (hb : b ≠ [])
    (hpl : 3 < min 10 (min a.length b.length))
    (hpre : a.take (min 10 (min a.length b.length)) =
            b.take (min 10 (min a.length b.length))) :
    (areSimilar (some a) (some b)).ratio ≥ 0.5 ∧
    (areSimilar (some a) (some b)).similar = true := by
  have hguard : ¬(some a = none ∨ some a = some ([] : Str) ∨
      some b = none ∨ some b = some ([] : Str)) := by
    simp [ha, hb]
  unfold areSimilar
  rw [if_neg hguard]
  simp only [Option.getD_some, hna, hnb]
  by_cases heq : a = b
  · rw [if_pos heq]
    exact ⟨by norm_num, rfl⟩
  · rw [if_neg heq]
    have hne : ¬(a = [] ∨ b = []) := by simp [ha, hb]
    rw [if_neg hne]
    by_cases hbr : a = ['\x7d'] ∧ b = ['\x7d']
    · rw [if_pos hbr]
      exact ⟨by norm_num, rfl⟩
    · rw [if_neg hbr]
      rw [if_pos ⟨hpl, hpre⟩]
      refine ⟨le_max_right _ _, ?_⟩
      rw [decide_eq_true_eq]
      exact le_trans (by norm_num) (le_max_right _ 0.5)

/-- Witness for the amended C7 at `a = b = "abcd"`. -/
theorem areSimilar_prefix_floor_witness :
    (normalizeWS ['a', 'b', 'c', 'd'] = ['a', 'b', 'c', 'd'] ∧
     (['a', 'b', 'c', 'd'] : Str) ≠ [] ∧
     3 < min 10 (min (['a', 'b', 'c', 'd'] : Str).length
       (['a', 'b', 'c', 'd'] : Str).length)) ∧
    (areSimilar (some ['a', 'b', 'c', 'd']) (some ['a', 'b', 'c', 'd'])).ratio ≥ 0.5 ∧
    (areSimilar (some ['a', 'b', 'c', 'd']) (some ['a', 'b', 'c', 'd'])).similar = true :=
  ⟨⟨by decide, by decide, by decide⟩,
    areSimilar_prefix_floor ['a', 'b', 'c', 'd'] ['a', 'b', 'c', 'd']
      (by decide) (by decide) (by decide) (by decide) (by decide) (by decide)⟩

/-! ### Inline differ (`findInlineDiff`, `findInlineDiffWords`) -/

/-- One `{ text, changed }` inline segment. -/
structure InlineSegment where
  text : Str
  changed : Bool
deriving DecidableEq, Repr

/-- Concatenation of the `.text` fields of a segment list, in order. -/
def joinTexts (segs : List InlineSegment) : Str :=
  segs.flatMap fun s => s.text

/-- The length of the longest common prefix of two strings: the value the
source's `while` loop computes into `prefixLen` (the loop's `minLen` bound is
implied, since a common prefix never exceeds either length). -/
def commonPrefixLen : Str → Str → Nat
  | x :: xs, y :: ys => if x = y then commonPrefixLen xs ys + 1 else 0
  | _, _ => 0

/-- `if (x) result.push({ text: x, changed })`: a conditional singleton
segment, pushed only when the text is non-empty. -/
def optSeg (x : Str) (changed : Bool) : List InlineSegment :=
  if x ≠ [] then [⟨x, changed⟩] else []

/-- `findInlineDiff`: character-level inline diff by common prefix/suffix
trimming.  `suffixLen` is the source's second `while` loop: it grows while
below `minLen - prefixLen` and while the characters from the two ends agree,
i.e. it is the smaller of that bound and the common prefix length of the
reversed strings.  (The source's initial `if (!oldStr) oldStr = ''` guards
only replace `null`/`undefined` by the empty string and are the identity on
the strings modelled here.) -/
def findInlineDiff (oldStr newStr : Str) : List InlineSegment × List InlineSegment :=
  let minLen := min oldStr.length newStr.length
  let prefixLen := commonPrefixLen oldStr newStr
  let suffixLen := min (minLen - prefixLen) (commonPrefixLen oldStr.reverse newStr.reverse)
  let pre := oldStr.take prefixLen
  let oldMiddle := (oldStr.take (oldStr.length - suffixLen)).drop prefixLen
  let newMiddle := (newStr.take (newStr.length - suffixLen)).drop prefixLen
  let suf := oldStr.drop (oldStr.length - suffixLen)
  let oldResult := optSeg pre false ++ optSeg oldMiddle true ++ optSeg suf false
  let newResult := optSeg pre false ++ optSeg newMiddle true ++ optSeg suf false
  if oldResult = [] ∧ newResult = [] then ([⟨oldStr, false⟩], [⟨newStr, false⟩])
  else (oldResult, newResult)

/-- The tokenizer of `findInlineDiffWords`: split a string into maximal runs
of whitespace and non-whitespace characters.  `isSp` is the loop's `isSpace`
flag (the class of the previous character), `cur` the run being accumulated. -/
def tokenizeAux (isSp : Bool) (cur : Str) : Str → List Str
  | [] => if cur = [] then [] else [cur]
  | c :: cs =>
    let cSp := isSpaceChar c
    if cur ≠ [] ∧ cSp ≠ isSp then cur :: tokenizeAux cSp [c] cs
    else tokenizeAux cSp (cur ++ [c]) cs

/-- `tokenize` of `findInlineDiffWords` (initial state: empty run,
`isSpace = false`). -/
def tokenize (s : Str) : List Str :=
  tokenizeAux false [] s

/-- The token-level backtracking walk of `findInlineDiffWords` over the LCS
matrix of the two token lists, producing the old-side and new-side segment
lists (same `unshift` convention as `backtrackAux`). -/
def inlineBacktrackAux (dp : Nat → Nat → Nat) (oldT newT : List Str) (i j : Nat) :
    List InlineSegment × List InlineSegment :=
  if i = 0 ∧ j = 0 then ([], [])
  else if 0 < i ∧ 0 < j ∧ oldT.getD (i - 1) [] = newT.getD (j - 1) [] then
    let r := inlineBacktrackAux dp oldT newT (i - 1) (j - 1)
    (r.1 ++ [⟨oldT.getD (i - 1) [], false⟩], r.2 ++ [⟨newT.getD (j - 1) [], false⟩])
  else if 0 < j ∧ (i = 0 ∨ dp i (j - 1) ≥ dp (i - 1) j) then
    let r := inlineBacktrackAux dp oldT newT i (j - 1)
    (r.1, r.2 ++ [⟨newT.getD (j - 1) [], true⟩])
  else
    let r := inlineBacktrackAux dp oldT newT (i - 1) j
    (r.1 ++ [⟨oldT.getD (i - 1) [], true⟩], r.2)
termination_by i + j
decreasing_by
  · omega
  · omega
  · rename_i h0 h1 h2
    rcases Nat.eq_zero_or_pos i with hi | hi
    · exact absurd ⟨by omega, Or.inl hi⟩ h2
    · omega

/-- The `merge` step of `findInlineDiffWords`: coalesce adjacent segments with
equal `changed` flags (`cur` plays the role of the mutable last element). -/
def mergeSegsAux (cur : InlineSegment) : List InlineSegment → List InlineSegment
  | [] => [cur]
  | s :: rest =>
    if s.changed = cur.changed then mergeSegsAux ⟨cur.text ++ s.text, cur.changed⟩ rest
    else cur :: mergeSegsAux s rest

/-- `merge` on a whole segment list. -/
def mergeSegs : List InlineSegment → List InlineSegment
  | [] => []
  | s :: rest => mergeSegsAux s rest

/-- `findInlineDiffWords`: tokenize both strings, run the LCS aligner over the
tokens, and coalesce adjacent same-kind segments. -/
def findInlineDiffWords (oldStr newStr : Str) :
    List InlineSegment × List InlineSegment :=
  let oldT := tokenize oldStr
  let newT := tokenize newStr
  let r := inlineBacktrackAux (computeLCS oldT newT) oldT newT oldT.length newT.length
  (mergeSegs r.1, mergeSegs r.2)

/-! ### C4: inline-diff round trips -/

theorem joinTexts_append (l l' : List InlineSegment) :
    joinTexts (l ++ l') = joinTexts l ++ joinTexts l' := by
  simp [joinTexts]

theorem joinTexts_cons (s : InlineSegment) (l : List InlineSegment) :
    joinTexts (s :: l) = s.text ++ joinTexts l := by
  simp [joinTexts]

theorem joinTexts_optSeg (x : Str) (c : Bool) : joinTexts (optSeg x c) = x := by
  by_cases h : x = []
  · simp [optSeg, joinTexts, h]
  · simp [optSeg, joinTexts, h]

theorem joinTexts_three (x y z : Str) (c1 c2 c3 : Bool) :
    joinTexts (optSeg x c1 ++ optSeg y c2 ++ optSeg z c3) = x ++ y ++ z := by
  rw [joinTexts_append, joinTexts_append, joinTexts_optSeg, joinTexts_optSeg,
    joinTexts_optSeg]

theorem commonPrefixLen_le (xs : Str) :
    ∀ ys, commonPrefixLen xs ys ≤ xs.length ∧ commonPrefixLen xs ys ≤ ys.length := by
  induction xs with
  | nil => intro ys; simp [commonPrefixLen]
  | cons x xs ih =>
    intro ys
    cases ys with
    | nil => simp [commonPrefixLen]
    | cons y ys =>
      by_cases h : x = y
      · have := ih ys
        simp only [commonPrefixLen, if_pos h, List.length_cons]
        omega
      · simp [commonPrefixLen, h]

theorem take_eq_of_le_commonPrefixLen (xs : Str) :
    ∀ ys k, k ≤ commonPrefixLen xs ys → xs.take k = ys.take k := by
  induction xs with
  | nil =>
    intro ys k hk
    simp only [commonPrefixLen] at hk
    have : k = 0 := by
      cases ys <;> simp_all
    simp [this]
  | cons x xs ih =>
    intro ys k hk
    cases ys with
    | nil =>
      have : k = 0 := by simp [commonPrefixLen] at hk; omega
      simp [this]
    | cons y ys =>
      by_cases h : x = y
      · rw [commonPrefixLen, if_pos h] at hk
        cases k with
        | zero => simp
        | succ k =>
          have := ih ys k (by omega)
          simp [List.take_succ_cons, h, this]
      · rw [commonPrefixLen, if_neg h] at hk
        have : k = 0 := by omega
        simp [this]

/-- Splitting a list into its first `p` elements, a middle, and its last `s`
elements. -/
theorem take_middle_drop {α : Type} (l : List α) (p s : Nat)
    (h : p + s ≤ l.length) :
    l.take p ++ (l.take (l.length - s)).drop p ++ l.drop (l.length - s) = l := by
  have h1 : (l.take (l.length - s)).take p = l.take p := by
    rw [List.take_take]
    congr 1
    omega
  calc l.take p ++ (l.take (l.length - s)).drop p ++ l.drop (l.length - s)
      = ((l.take (l.length - s)).take p ++ (l.take (l.length - s)).drop p) ++
          l.drop (l.length - s) := by rw [h1]
    _ = l.take (l.length - s) ++ l.drop (l.length - s) := by
          rw [List.take_append_drop]
    _ = l := List.take_append_drop ..

theorem drop_length_sub_eq {α : Type} (l : List α) (s : Nat) :
    l.drop (l.length - s) = (l.reverse.take s).reverse := by
  rw [List.reverse_take]
  simp

/-- Round trip of the character-level inline diff strategy. -/
theorem findInlineDiff_round_trip (o n : Str) :
    joinTexts (findInlineDiff o n).1 = o ∧ joinTexts (findInlineDiff o n).2 = n := by
  simp only [findInlineDiff]
  have hple := commonPrefixLen_le o n
  have hrle := commonPrefixLen_le o.reverse n.reverse
  split_ifs with hcase
  · constructor <;> simp [joinTexts]
  · have hps : commonPrefixLen o n +
        min (min o.length n.length - commonPrefixLen o n)
          (commonPrefixLen o.reverse n.reverse) ≤ min o.length n.length := by
      omega
    constructor
    · rw [joinTexts_three]
      exact take_middle_drop o _ _ (by omega)
    · rw [joinTexts_three]
      have hpre : o.take (commonPrefixLen o n) = n.take (commonPrefixLen o n) :=
        take_eq_of_le_commonPrefixLen o n _ le_rfl
      have hsufrev :
          o.reverse.take (min (min o.length n.length - commonPrefixLen o n)
              (commonPrefixLen o.reverse n.reverse)) =
          n.reverse.take (min (min o.length n.length - commonPrefixLen o n)
              (commonPrefixLen o.reverse n.reverse)) :=
        take_eq_of_le_commonPrefixLen o.reverse n.reverse _ (min_le_right _ _)
      have hsuf : o.drop (o.length -
            min (min o.length n.length - commonPrefixLen o n)
              (commonPrefixLen o.reverse n.reverse)) =
          n.drop (n.length -
            min (min o.length n.length - commonPrefixLen o n)
              (commonPrefixLen o.reverse n.reverse)) := by
        rw [drop_length_sub_eq, drop_length_sub_eq, hsufrev]
      rw [hpre, hsuf]
      exact take_middle_drop n _ _ (by omega)

theorem tokenizeAux_flatten :
    ∀ (s : Str) (isSp : Bool) (cur : Str), (tokenizeAux isSp cur s).flatten = cur ++ s := by
  intro s
  induction s with
  | nil =>
    intro isSp cur
    by_cases h : cur = []
    · simp [tokenizeAux, h]
    · simp [tokenizeAux, h]
  | cons c cs ih =>
    intro isSp cur
    simp only [tokenizeAux]
    by_cases h : cur ≠ [] ∧ isSpaceChar c ≠ isSp
    · rw [if_pos h]
      simp [ih]
    · rw [if_neg h]
      rw [ih]
      simp

theorem tokenize_flatten (s : Str) : (tokenize s).flatten = s :=
  tokenizeAux_flatten s false []

theorem flatten_take_succ (l : List Str) (k : Nat) (h : k < l.length) :
    (l.take (k + 1)).flatten = (l.take k).flatten ++ l.getD k [] := by
  rw [take_getD l k [] h, List.flatten_append]
  simp

/-- Round-trip property of the token-level backtracking walk: from `(i, j)`
the old-side segments concatenate to the first `i` tokens' text and the
new-side segments to the first `j` tokens' text, for any matrix `dp`. -/
theorem inlineBacktrackAux_take (dp : Nat → Nat → Nat) (oldT newT : List Str) :
    ∀ nn i j, i + j ≤ nn → i ≤ oldT.length → j ≤ newT.length →
      joinTexts (inlineBacktrackAux dp oldT newT i j).1 = (oldT.take i).flatten ∧
      joinTexts (inlineBacktrackAux dp oldT newT i j).2 = (newT.take j).flatten := by
  intro nn
  induction nn with
  | zero =>
    intro i j hn _ _
    have hi : i = 0 := by omega
    have hj : j = 0 := by omega
    subst hi; subst hj
    rw [inlineBacktrackAux]
    simp [joinTexts]
  | succ nn ih =>
    intro i j hn ha hb
    rw [inlineBacktrackAux]
    by_cases h0 : i = 0 ∧ j = 0
    · simp [h0, joinTexts]
    · rw [if_neg h0]
      by_cases h1 : 0 < i ∧ 0 < j ∧ oldT.getD (i - 1) [] = newT.getD (j - 1) []
      · rw [if_pos h1]
        obtain ⟨hi, hj, _⟩ := h1
        have hrec := ih (i - 1) (j - 1) (by omega) (by omega) (by omega)
        constructor
        · rw [joinTexts_append, hrec.1]
          have h4 := flatten_take_succ oldT (i - 1) (by omega)
          rw [Nat.sub_add_cancel hi] at h4
          rw [h4]
          simp [joinTexts]
        · rw [joinTexts_append, hrec.2]
          have h4 := flatten_take_succ newT (j - 1) (by omega)
          rw [Nat.sub_add_cancel hj] at h4
          rw [h4]
          simp [joinTexts]
      · rw [if_neg h1]
        by_cases h2 : 0 < j ∧ (i = 0 ∨ dp i (j - 1) ≥ dp (i - 1) j)
        · rw [if_pos h2]
          obtain ⟨hj, _⟩ := h2
          have hrec := ih i (j - 1) (by omega) ha (by omega)
          constructor
          · exact hrec.1
          · rw [joinTexts_append, hrec.2]
            have h4 := flatten_take_succ newT (j - 1) (by omega)
            rw [Nat.sub_add_cancel hj] at h4
            rw [h4]
            simp [joinTexts]
        · rw [if_neg h2]
          have hi : 0 < i := by
            rcases Nat.eq_zero_or_pos i with hz | hp
            · exact absurd ⟨by omega, Or.inl hz⟩ h2
            · exact hp
          have hrec := ih (i - 1) j (by omega) (by omega) hb
          constructor
          · rw [joinTexts_append, hrec.1]
            have h4 := flatten_take_succ oldT (i - 1) (by omega)
            rw [Nat.sub_add_cancel hi] at h4
            rw [h4]
            simp [joinTexts]
          · exact hrec.2

theorem joinTexts_mergeSegsAux :
    ∀ (l : List InlineSegment) (cur : InlineSegment),
      joinTexts (mergeSegsAux cur l) = cur.text ++ joinTexts l := by
  intro l
  induction l with
  | nil => intro cur; simp [mergeSegsAux, joinTexts]
  | cons s rest ih =>
    intro cur
    simp only [mergeSegsAux]
    by_cases h : s.changed = cur.changed
    · rw [if_pos h, ih]
      rw [joinTexts_cons, List.append_assoc]
    · rw [if_neg h, joinTexts_cons, ih, joinTexts_cons]

theorem joinTexts_mergeSegs (l : List InlineSegment) :
    joinTexts (mergeSegs l) = joinTexts l := by
  cases l with
  | nil => rfl
  | cons s rest => rw [mergeSegs, joinTexts_mergeSegsAux, joinTexts_cons]

/-- Round trip of the token-level inline diff strategy. -/
theorem findInlineDiffWords_round_trip (o n : Str) :
    joinTexts (findInlineDiffWords o n).1 = o ∧
    joinTexts (findInlineDiffWords o n).2 = n := by
  unfold findInlineDiffWords
  have h := inlineBacktrackAux_take (computeLCS (tokenize o) (tokenize n))
    (tokenize o) (tokenize n) ((tokenize o).length + (tokenize n).length)
    (tokenize o).length (tokenize n).length le_rfl le_rfl le_rfl
  constructor
  · rw [joinTexts_mergeSegs, h.1, List.take_length, tokenize_flatten]
  · rw [joinTexts_mergeSegs, h.2, List.take_length, tokenize_flatten]

/-- C4: both inline-diff strategies satisfy the round-trip contract: for every
pair of input strings, concatenating the `.text` fields of the old-side
segments reproduces the old string exactly, and likewise for the new side. -/
theorem inline_diff_round_trip (oldStr newStr : Str) :
    joinTexts (findInlineDiff oldStr newStr).1 = oldStr ∧
    joinTexts (findInlineDiff oldStr newStr).2 = newStr ∧
    joinTexts (findInlineDiffWords oldStr newStr).1 = oldStr ∧
    joinTexts (findInlineDiffWords oldStr newStr).2 = newStr :=
  ⟨(findInlineDiff_round_trip oldStr newStr).1,
   (findInlineDiff_round_trip oldStr newStr).2,
   (findInlineDiffWords_round_trip oldStr newStr).1,
   (findInlineDiffWords_round_trip oldStr newStr).2⟩

/-! ### Merge reconciler (`generateSplitDiff`, `getGroupIdForLine`,
`generateMergedCSS`) -/

/-- The `type` tags of split-view pane items (`empty` fills the pane opposite
a one-sided entry). -/
inductive SplitType where
  | empty
  | added
  | removed
  | modified
  | unchanged
deriving DecidableEq, Repr

/-- One pane item of `generateSplitDiff`; `modified` items additionally carry
`originalContent`, `newContent` and `similarity`. -/
structure SplitItem where
  type : SplitType
  content : Option Str
  lineNumber : Option Nat
  originalContent : Option Str := none
  newContent : Option Str := none
  similarity : Option ℚ := none
deriving DecidableEq, Repr

/-- One gutter item of `generateSplitDiff`. -/
structure GutterItem where
  type : SplitType
  symbol : Str
deriving DecidableEq, Repr

/-- The `{ left, right, gutter }` result of `generateSplitDiff`. -/
structure SplitResult where
  left : List SplitItem
  right : List SplitItem
  gutter : List GutterItem
deriving DecidableEq, Repr

/-- The left item, right item and gutter item `generateSplitDiff` pushes for
one diff entry (empty JS strings are `some []`). -/
def splitOfEntry (e : DiffEntry) : SplitItem × SplitItem × GutterItem :=
  match e.type with
  | .added =>
    ({ type := .empty, content := some [], lineNumber := none },
     { type := .added, content := e.rightContent, lineNumber := e.rightLine },
     ⟨.added, ['+']⟩)
  | .removed =>
    ({ type := .removed, content := e.leftContent, lineNumber := e.leftLine },
     { type := .empty, content := some [], lineNumber := none },
     ⟨.removed, ['-']⟩)
  | .modified =>
    ({ type := .modified, content := e.leftContent, lineNumber := e.leftLine,
       originalContent := e.leftContent, newContent := e.rightContent,
       similarity := e.similarity },
     { type := .modified, content := e.rightContent, lineNumber := e.rightLine,
       originalContent := e.leftContent, newContent := e.rightContent,
       similarity := e.similarity },
     ⟨.modified, ['~']⟩)
  | .unchanged =>
    ({ type := .unchanged, content := e.leftContent, lineNumber := e.leftLine },
     { type := .unchanged, content := e.rightContent, lineNumber := e.rightLine },
     ⟨.unchanged, []⟩)

/-- `generateSplitDiff`: one left item, one right item and one gutter item per
diff entry, in order. -/
def generateSplitDiff : List DiffEntry → SplitResult
  | [] => ⟨[], [], []⟩
  | e :: tl =>
    let s := splitOfEntry e
    let rest := generateSplitDiff tl
    ⟨s.1 :: rest.left, s.2.1 :: rest.right, s.2.2 :: rest.gutter⟩

/-- A merge decision group as built by the surrounding UI layer
(`buildDiffGroups` walks the rendered lines, which mirror the
`generateSplitDiff` arrays one-to-one); only the fields `generateMergedCSS`
reads — `id` and the member line indices `lines` — are modelled. -/
structure DiffGroup where
  id : Nat
  lines : List Nat
deriving DecidableEq, Repr

/-- `getGroupIdForLine`: the id of the first group whose `lines` contain the
index, else `null`. -/
def getGroupIdForLine (groups : List DiffGroup) (lineIndex : Nat) : Option Nat :=
  (groups.find? fun g => g.lines.contains lineIndex).map fun g => g.id

/-- The decision `generateMergedCSS` looks up for line `i`:
`mergeDecisions.get(getGroupIdForLine(i))`, `null` when the line is in no
group.  The decision map is modelled as an association list. -/
def decisionForLine (groups : List DiffGroup) (decisions : List (Nat × String))
    (i : Nat) : Option String :=
  (getGroupIdForLine groups i).bind fun gid => decisions.lookup gid

/-- The body of `generateMergedCSS`'s loop over the split arrays, carrying the
running line index.  Output lines are kept as a list (the source joins them
with newlines at the end); a line's content is an `Option Str` exactly as
stored in the split items. -/
def mergedAux (groups : List DiffGroup) (decisions : List (Nat × String)) :
    List SplitItem → List SplitItem → Nat → List (Option Str)
  | l :: ls, r :: rs, i =>
    let decision := decisionForLine groups decisions i
    let here : List (Option Str) :=
      if l.type = .unchanged then [l.content]
      else if l.type = .removed then
        if decision = some "restore" ∨ decision = some "original" ∨
            decision = some "both" then [l.content]
        else []
      else if l.type = .empty ∧ r.type = .added then
        if decision = some "discard" ∨ decision = some "original" then []
        else [r.content]
      else if l.type = .modified then
        if decision = some "original" then [l.content]
        else if decision = some "both" then [l.content, r.content]
        else [r.content]
      else []
    here ++ mergedAux groups decisions ls rs (i + 1)
  | _, _, _ => []

/-- `generateMergedCSS` (modulo the final newline join): reduce the diff plus
group decisions to the list of output lines. -/
def generateMergedCSS (diff : List DiffEntry) (groups : List DiffGroup)
    (decisions : List (Nat × String)) : List (Option Str) :=
  let s := generateSplitDiff diff
  mergedAux groups decisions s.left s.right 0

/-- The per-entry contribution stated by the spec's decision laws (the
claim-side definition): `unchanged` always contributes its content; `removed`
contributes its left content exactly when the decision is `restore`,
`original` or `both`; `added` contributes its right content unless the
decision is `discard` or `original`; `modified` contributes left for
`original`, both sides for `both`, and right otherwise. -/
def mergeContribution (decision : Option String) (e : DiffEntry) :
    List (Option Str) :=
  match e.type with
  | .unchanged => [e.leftContent]
  | .removed =>
    if decision = some "restore" ∨ decision = some "original" ∨
        decision = some "both" then [e.leftContent]
    else []
  | .added =>
    if decision = some "discard" ∨ decision = some "original" then []
    else [e.rightContent]
  | .modified =>
    if decision = some "original" then [e.leftContent]
    else if decision = some "both" then [e.leftContent, e.rightContent]
    else [e.rightContent]

/-! ### C2: reconciler decision laws -/

theorem decisionForLine_nil (groups : List DiffGroup) (i : Nat) :
    decisionForLine groups [] i = none := by
  unfold decisionForLine
  cases getGroupIdForLine groups i with
  | none => rfl
  | some gid => simp [List.lookup]

theorem mergeContribution_none (e : DiffEntry) :
    mergeContribution none e =
      match e.type with
      | .unchanged => [e.leftContent]
      | .removed => []
      | .added => [e.rightContent]
      | .modified => [e.rightContent] := by
  cases he : e.type <;> simp [mergeContribution, he]

theorem enumFrom_flatMap_snd {α β : Type} (g : α → List β) :
    ∀ (d : List α) (i0 : Nat),
      (List.enumFrom i0 d).flatMap (fun p => g p.2) = d.flatMap g := by
  intro d
  induction d with
  | nil => intro i0; rfl
  | cons e tl ih => intro i0; simp [List.enumFrom, List.flatMap_cons, ih]

/-- The loop of `generateMergedCSS` over the split arrays of a diff computes,
entry by entry, exactly the per-entry contribution of the spec's decision
laws. -/
theorem mergedAux_spec (groups : List DiffGroup) (decisions : List (Nat × String)) :
    ∀ (d : List DiffEntry) (i0 : Nat),
      mergedAux groups decisions (generateSplitDiff d).left
        (generateSplitDiff d).right i0 =
      (List.enumFrom i0 d).flatMap fun p =>
        mergeContribution (decisionForLine groups decisions p.1) p.2 := by
  intro d
  induction d with
  | nil => intro i0; simp [generateSplitDiff, mergedAux]
  | cons e tl ih =>
    intro i0
    show mergedAux groups decisions
        ((splitOfEntry e).1 :: (generateSplitDiff tl).left)
        ((splitOfEntry e).2.1 :: (generateSplitDiff tl).right) i0 = _
    rw [mergedAux]
    rw [ih (i0 + 1)]
    have henum : List.enumFrom i0 (e :: tl) =
        (i0, e) :: List.enumFrom (i0 + 1) tl := rfl
    rw [henum, List.flatMap_cons]
    congr 1
    cases he : e.type <;>
      simp [splitOfEntry, he, mergeContribution]

/-- C2: the reconciler's decision laws.  With the empty decision map, every
`modified` entry contributes exactly its right (new) content, every `added`
entry its right content, every `removed` entry nothing, and every `unchanged`
entry its content.  With any groups and decision map, the output is the
concatenation of the per-entry contributions, in which a `removed` line is
emitted (as its left content) if and only if its group's decision is
`restore`, `original` or `both`. -/
theorem merge_reconciler_decision_laws (d : List DiffEntry) (groups : List DiffGroup) :
    generateMergedCSS d groups [] =
      (d.flatMap fun e =>
        match e.type with
        | .unchanged => [e.leftContent]
        | .removed => []
        | .added => [e.rightContent]
        | .modified => [e.rightContent]) ∧
    ∀ decisions, generateMergedCSS d groups decisions =
      d.enum.flatMap fun p =>
        mergeContribution (decisionForLine groups decisions p.1) p.2 := by
  have hmain : ∀ decisions, generateMergedCSS d groups decisions =
      d.enum.flatMap fun p =>
        mergeContribution (decisionForLine groups decisions p.1) p.2 := by
    intro decisions
    unfold generateMergedCSS
    rw [mergedAux_spec]
    rfl
  refine ⟨?_, hmain⟩
  rw [hmain []]
  simp only [decisionForLine_nil, mergeContribution_none]
  rw [List.enum]
  exact enumFrom_flatMap_snd
    (fun e : DiffEntry =>
      match e.type with
      | .unchanged => [e.leftContent]
      | .removed => []
      | .added => [e.rightContent]
      | .modified => [e.rightContent]) d 0

/-! ### JSON diff tree builder (`compareJSON`, `compareObjects`,
`compareArrays`, `buildAddedTree`, `buildRemovedTree`, `countChanges`,
`getDiffStats`) -/

/-- JSON-compatible values.  JS numbers are modelled as exact rationals;
objects as key/value lists (real JS objects have distinct keys, and lookups
take the first match). -/
inductive Json where
  | null
  | bool (b : Bool)
  | num (q : ℚ)
  | str (s : String)
  | arr (elems : List Json)
  | obj (fields : List (String × Json))

/-- `getValueType`: `'null'` for null, `'array'` for arrays, else `typeof`
(with `'undefined'` for an absent value). -/
def getValueType : Option Json → String
  | some .null => "null"
  | some (.arr _) => "array"
  | some (.bool _) => "boolean"
  | some (.num _) => "number"
  | some (.str _) => "string"
  | some (.obj _) => "object"
  | none => "undefined"

/-- JS `===` as the source applies it to two present values: the comparison is
only reached for same-type primitives (objects and arrays are routed to
`compareObjects`/`compareArrays` first), where it is value equality. -/
def jsonStrictEq : Json → Json → Bool
  | .null, .null => true
  | .bool a, .bool b => a == b
  | .num a, .num b => a == b
  | .str a, .str b => a == b
  | _, _ => false

/-- One node of the JSON diff tree, following the source's node objects:
`oldType`/`newType` are present only on type-mismatch nodes; `hasChanges`
only on the container nodes built by `compareObjects`/`compareArrays`;
`key`/`index` are the decorations `{ key, ...child }` added when a node is
pushed into its parent's `children`. -/
inductive DiffNode where
  | mk (type : String) (path : String) (oldValue newValue : Option Json)
      (oldType newType : Option String) (valueType : String)
      (children : Option (List DiffNode)) (hasChanges : Option Bool)
      (key : Option (String ⊕ Nat)) (index : Option Nat)

def DiffNode.type : DiffNode → String
  | .mk t _ _ _ _ _ _ _ _ _ _ => t

def DiffNode.children : DiffNode → Option (List DiffNode)
  | .mk _ _ _ _ _ _ _ ch _ _ _ => ch

def DiffNode.hasChanges : DiffNode → Option Bool
  | .mk _ _ _ _ _ _ _ _ hc _ _ => hc

/-- The `{ key, ...child }` decoration used by `compareObjects` and
`buildAddedTree`/`buildRemovedTree` on object children. -/
def DiffNode.withKey (k : String) : DiffNode → DiffNode
  | .mk t p o n ot nt vt ch hc _ idx => .mk t p o n ot nt vt ch hc (some (Sum.inl k)) idx

/-- The `{ key: i, index: i, ...child }` decoration used on array children. -/
def DiffNode.withKeyIndex (i : Nat) : DiffNode → DiffNode
  | .mk t p o n ot nt vt ch hc _ _ =>
    .mk t p o n ot nt vt ch hc (some (Sum.inr i)) (some i)

/-- `Object.keys` (JS object keys are distinct; `eraseDups` keeps the model
total on lists with repeated keys). -/
def objKeys (fields : List (String × Json)) : List String :=
  (fields.map Prod.fst).eraseDups

/-- `Array.prototype.sort()` on a key list (lexicographic). -/
def sortStrings (l : List String) : List String :=
  l.mergeSort fun a b => decide (a ≤ b)

/-- `path ? path + "." + key : key`. -/
def childPathKey (path key : String) : String :=
  if path = "" then key else path ++ "." ++ key

/-- `path + "[" + i + "]"`. -/
def childPathIdx (path : String) (i : Nat) : String :=
  path ++ "[" ++ toString i ++ "]"

theorem lookup_mem {β : Type} :
    ∀ (l : List (String × β)) (k : String) (v : β),
      List.lookup k l = some v → (k, v) ∈ l := by
  intro l
  induction l with
  | nil => intro k v h; simp [List.lookup] at h
  | cons a tl ih =>
    intro k v h
    cases a with
    | mk a1 a2 =>
      rw [List.lookup] at h
      split at h
      · rename_i hbeq
        have hk : k = a1 := by simpa using hbeq
        have hv : a2 = v := by simpa using h
        subst hk; subst hv
        exact List.mem_cons_self ..
      · exact List.mem_cons_of_mem _ (ih k v h)

theorem json_sizeOf_pos (v : Json) : 0 < sizeOf v := by
  cases v <;> simp

theorem sizeOf_lookup_lt (l : List (String × Json)) (k : String) :
    sizeOf (List.lookup k l) < 1 + (1 + sizeOf l) := by
  have hl : 1 ≤ sizeOf l := by
    cases l with
    | nil => simp
    | cons a tl => simp; omega
  cases h : List.lookup k l with
  | none =>
    simp only [Option.none.sizeOf_spec, Option.some.sizeOf_spec, Json.obj.sizeOf_spec]
    omega
  | some v =>
    have h1 : sizeOf (k, v) < sizeOf l := List.sizeOf_lt_of_mem (lookup_mem l k v h)
    have h2 : sizeOf v < sizeOf (k, v) := by simp
    simp only [Option.some.sizeOf_spec, Json.obj.sizeOf_spec]
    omega

theorem sizeOf_getElem?_lt (l : List Json) (i : Nat) :
    sizeOf l[i]? < 1 + (1 + sizeOf l) := by
  have hl : 1 ≤ sizeOf l := by
    cases l with
    | nil => simp
    | cons a tl => simp; omega
  cases h : l[i]? with
  | none =>
    simp only [Option.none.sizeOf_spec, Option.some.sizeOf_spec, Json.arr.sizeOf_spec]
    omega
  | some v =>
    have h1 : sizeOf v < sizeOf l := List.sizeOf_lt_of_mem (List.getElem?_mem h)
    simp only [Option.some.sizeOf_spec, Json.arr.sizeOf_spec]
    omega

theorem sizeOf_lookup_some_lt (value : List (String × Json)) (k : String)
    (w : Json) (hv : List.lookup k value = some w) :
    sizeOf w < 1 + sizeOf value := by
  have h1 := List.sizeOf_lt_of_mem (lookup_mem value k w hv)
  have h2 : sizeOf w < sizeOf (k, w) := by simp
  omega

mutual
/-- `buildAddedTree`: the `children` array of an entirely added value
(`null` for primitives); array elements and sorted object keys become
wholly-`added` child nodes, recursively. -/
def buildAddedTree : Json → String → Option (List DiffNode)
  | .arr elems, path => some (buildAddedList path 0 elems)
  | .obj fields, path =>
    some (buildAddedFields fields path (sortStrings (objKeys fields)))
  | _, _ => none
termination_by v _ => (sizeOf v, 1, 0)

/-- The `value.map((item, i) => ...)` of `buildAddedTree` on an array. -/
def buildAddedList (path : String) : Nat → List Json → List DiffNode
  | _, [] => []
  | i, item :: rest =>
    DiffNode.mk "added" (childPathIdx path i) none (some item) none none
        (getValueType (some item)) (buildAddedTree item (childPathIdx path i))
        none (some (Sum.inr i)) (some i) ::
      buildAddedList path (i + 1) rest
termination_by _ elems => (sizeOf elems, 0, 0)

/-- The `Object.keys(value).sort().map(key => ...)` of `buildAddedTree` on an
object. -/
def buildAddedFields (value : List (String × Json)) (path : String) :
    List String → List DiffNode
  | [] => []
  | k :: ks =>
    DiffNode.mk "added" (childPathKey path k) none (List.lookup k value) none
        none (getValueType (List.lookup k value))
        (match hv : List.lookup k value with
         | some w =>
           have := sizeOf_lookup_some_lt value k w hv
           buildAddedTree w (childPathKey path k)
         | none => none)
        none (some (Sum.inl k)) none ::
      buildAddedFields value path ks
termination_by ks => (sizeOf (Json.obj value), 0, ks.length)
end

mutual
/-- `buildRemovedTree`: mirror image of `buildAddedTree` for entirely removed
values. -/
def buildRemovedTree : Json → String → Option (List DiffNode)
  | .arr elems, path => some (buildRemovedList path 0 elems)
  | .obj fields, path =>
    some (buildRemovedFields fields path (sortStrings (objKeys fields)))
  | _, _ => none
termination_by v _ => (sizeOf v, 1, 0)

/-- The array case of `buildRemovedTree`. -/
def buildRemovedList (path : String) : Nat → List Json → List DiffNode
  | _, [] => []
  | i, item :: rest =>
    DiffNode.mk "removed" (childPathIdx path i) (some item) none none none
        (getValueType (some item)) (buildRemovedTree item (childPathIdx path i))
        none (some (Sum.inr i)) (some i) ::
      buildRemovedList path (i + 1) rest
termination_by _ elems => (sizeOf elems, 0, 0)

/-- The object case of `buildRemovedTree`. -/
def buildRemovedFields (value : List (String × Json)) (path : String) :
    List String → List DiffNode
  | [] => []
  | k :: ks =>
    DiffNode.mk "removed" (childPathKey path k) (List.lookup k value) none none
        none (getValueType (List.lookup k value))
        (match hv : List.lookup k value with
         | some w =>
           have := sizeOf_lookup_some_lt value k w hv
           buildRemovedTree w (childPathKey path k)
         | none => none)
        none (some (Sum.inl k)) none ::
      buildRemovedFields value path ks
termination_by ks => (sizeOf (Json.obj value), 0, ks.length)
end

mutual
/-- `compareJSON`: deep structural comparison of two optional JSON values.
Both absent: `null`.  One-sided: an `added`/`removed` node whose children are
the wholly added/removed subtree for containers.  Type mismatch: a `modified`
leaf carrying `oldType`/`newType`.  Same-type containers: `compareObjects`/
`compareArrays` (the comparison routes on the common type, so the container
branches are only reached with matching shapes).  Same-type primitives:
`unchanged` on `===` equality, else `modified`. -/
def compareJSON (oldVal newVal : Option Json) (path : String) : Option DiffNode :=
  match oldVal, newVal with
  | none, none => none
  | none, some nv =>
    some (.mk "added" path none (some nv) none none (getValueType (some nv))
      (if getValueType (some nv) = "object" ∨ getValueType (some nv) = "array"
       then buildAddedTree nv path else none) none none none)
  | some ov, none =>
    some (.mk "removed" path (some ov) none none none (getValueType (some ov))
      (if getValueType (some ov) = "object" ∨ getValueType (some ov) = "array"
       then buildRemovedTree ov path else none) none none none)
  | some ov, some nv =>
    if getValueType (some ov) ≠ getValueType (some nv) then
      some (.mk "modified" path (some ov) (some nv)
        (some (getValueType (some ov))) (some (getValueType (some nv)))
        (getValueType (some nv)) none none none none)
    else
      match ov, nv with
      | .obj oo, .obj no => some (compareObjects oo no path)
      | .arr oa, .arr na => some (compareArrays oa na path)
      | _, _ =>
        if jsonStrictEq ov nv then
          some (.mk "unchanged" path (some ov) (some nv) none none
            (getValueType (some ov)) none none none none)
        else
          some (.mk "modified" path (some ov) (some nv) none none
            (getValueType (some ov)) none none none none)
termination_by (sizeOf oldVal + sizeOf newVal, 2, 0)

/-- `compareObjects`: compare the sorted union of the key sets, collect the
non-null child nodes, and mark the node `modified` iff any child changed. -/
def compareObjects (oldObj newObj : List (String × Json)) (path : String) :
    DiffNode :=
  let sortedKeys := sortStrings ((objKeys oldObj ++ objKeys newObj).eraseDups)
  let r := compareFields oldObj newObj path sortedKeys
  .mk (if r.2 then "modified" else "unchanged") path (some (.obj oldObj))
    (some (.obj newObj)) none none "object" (some r.1) (some r.2) none none
termination_by
  (sizeOf (some (Json.obj oldObj)) + sizeOf (some (Json.obj newObj)), 1, 0)

/-- The key loop of `compareObjects`: children pushed with the `{ key, ... }`
decoration, and the `hasChanges` accumulator. -/
def compareFields (oldObj newObj : List (String × Json)) (path : String) :
    List String → List DiffNode × Bool
  | [] => ([], false)
  | k :: ks =>
    have _h1 := sizeOf_lookup_lt oldObj k
    have _h2 := sizeOf_lookup_lt newObj k
    let child := compareJSON (List.lookup k oldObj) (List.lookup k newObj)
      (childPathKey path k)
    let rest := compareFields oldObj newObj path ks
    match child with
    | some c => (c.withKey k :: rest.1, ((c.type != "unchanged") || rest.2))
    | none => rest
termination_by ks =>
  (sizeOf (some (Json.obj oldObj)) + sizeOf (some (Json.obj newObj)), 0,
   ks.length)

/-- `compareArrays`: positional comparison up to the longer length. -/
def compareArrays (oldArr newArr : List Json) (path : String) : DiffNode :=
  let maxLen := max oldArr.length newArr.length
  let r := compareElems oldArr newArr path maxLen 0
  .mk (if r.2 then "modified" else "unchanged") path (some (.arr oldArr))
    (some (.arr newArr)) none none "array" (some r.1) (some r.2) none none
termination_by
  (sizeOf (some (Json.arr oldArr)) + sizeOf (some (Json.arr newArr)), 1, 0)

/-- The index loop of `compareArrays` (`remaining` counts down from
`maxLen` while `i` counts up from 0). -/
def compareElems (oldArr newArr : List Json) (path : String) :
    Nat → Nat → List DiffNode × Bool
  | 0, _ => ([], false)
  | remaining + 1, i =>
    have _h1 := sizeOf_getElem?_lt oldArr i
    have _h2 := sizeOf_getElem?_lt newArr i
    let child := compareJSON oldArr[i]? newArr[i]? (childPathIdx path i)
    let rest := compareElems oldArr newArr path remaining (i + 1)
    match child with
    | some c => (c.withKeyIndex i :: rest.1, ((c.type != "unchanged") || rest.2))
    | none => rest
termination_by remaining _ =>
  (sizeOf (some (Json.arr oldArr)) + sizeOf (some (Json.arr newArr)), 0,
   remaining)
end

theorem sizeOf_children_lt (t : DiffNode) (cs : List DiffNode)
    (h : t.children = some cs) : sizeOf cs < sizeOf t := by
  cases t with
  | mk ty p o nv ot nt vt ch hc k idx =>
    simp only [DiffNode.children] at h
    subst h
    simp
    omega

mutual
/-- All nodes of a diff (sub)tree, in depth-first order: the node itself,
then the nodes of its children. -/
def nodesOf (t : DiffNode) : List DiffNode :=
  t :: (match h : t.children with
        | none => []
        | some cs =>
          have := sizeOf_children_lt t cs h
          nodesList cs)
termination_by (sizeOf t, 1)

/-- `nodesOf` over a list of sibling nodes. -/
def nodesList : List DiffNode → List DiffNode
  | [] => []
  | c :: cs => nodesOf c ++ nodesList cs
termination_by l => (sizeOf l, 0)
end

/-- The `{ added, removed, modified }` counts of `countChanges` (the JSON
diff module's statistics). -/
structure ChangeCounts where
  added : Nat
  removed : Nat
  modified : Nat
deriving DecidableEq, Repr

def ChangeCounts.add (x y : ChangeCounts) : ChangeCounts :=
  ⟨x.added + y.added, x.removed + y.removed, x.modified + y.modified⟩

mutual
/-- `countChanges`: count `added`/`removed`/`modified` nodes that have no
`children` (`!n.children`, i.e. a null — not merely empty — children field),
then recurse into the children.  (The source accumulates into one mutable
counts object; summing the per-subtree counts is the same total.) -/
def countChanges (n : DiffNode) : ChangeCounts :=
  let base : ChangeCounts :=
    if n.type == "added" && n.children.isNone then ⟨1, 0, 0⟩
    else if n.type == "removed" && n.children.isNone then ⟨0, 1, 0⟩
    else if n.type == "modified" && n.children.isNone then ⟨0, 0, 1⟩
    else ⟨0, 0, 0⟩
  match h : n.children with
  | none => base
  | some cs =>
    have := sizeOf_children_lt n cs h
    base.add (countChangesList cs)
termination_by (sizeOf n, 1)

/-- `countChanges`'s traversal over a children list. -/
def countChangesList : List DiffNode → ChangeCounts
  | [] => ⟨0, 0, 0⟩
  | c :: cs => (countChanges c).add (countChangesList cs)
termination_by l => (sizeOf l, 0)
end

/-- The `{ added, removed, modified, unchanged }` stats of the renderer's
`getDiffStats`. -/
structure DiffStats where
  added : Nat
  removed : Nat
  modified : Nat
  unchanged : Nat
deriving DecidableEq, Repr

def DiffStats.add (x y : DiffStats) : DiffStats :=
  ⟨x.added + y.added, x.removed + y.removed, x.modified + y.modified,
   x.unchanged + y.unchanged⟩

/-- The leaf test of `getDiffStats`:
`!node.children || node.children.length === 0`. -/
def isStatLeaf (n : DiffNode) : Bool :=
  match n.children with
  | none => true
  | some cs => cs.isEmpty

mutual
/-- `getDiffStats` (json-diff renderer): count every node whose children are
null or empty, under its type — with any type other than
`added`/`removed`/`modified` counted as `unchanged` — then recurse into the
children. -/
def getDiffStats (n : DiffNode) : DiffStats :=
  let base : DiffStats :=
    if isStatLeaf n then
      if n.type == "added" then ⟨1, 0, 0, 0⟩
      else if n.type == "removed" then ⟨0, 1, 0, 0⟩
      else if n.type == "modified" then ⟨0, 0, 1, 0⟩
      else ⟨0, 0, 0, 1⟩
    else ⟨0, 0, 0, 0⟩
  match h : n.children with
  | none => base
  | some cs =>
    have := sizeOf_children_lt n cs h
    base.add (getDiffStatsList cs)
termination_by (sizeOf n, 1)

/-- `getDiffStats`'s traversal over a children list. -/
def getDiffStatsList : List DiffNode → DiffStats
  | [] => ⟨0, 0, 0, 0⟩
  | c :: cs => (getDiffStats c).add (getDiffStatsList cs)
termination_by l => (sizeOf l, 0)
end

/-- The number of nodes of a subtree that a leaf-only statistic counts under
a given bucket: `leaf` decides whether a node is counted at all, `bucket`
which nodes fall in the bucket. -/
def leafCount (leaf bucket : DiffNode → Bool) (t : DiffNode) : Nat :=
  ((nodesOf t).filter fun n => leaf n && bucket n).length

/-- `leafCount` over a list of sibling subtrees. -/
def leafCountList (leaf bucket : DiffNode → Bool) (l : List DiffNode) : Nat :=
  ((nodesList l).filter fun n => leaf n && bucket n).length

/-! ### C6: leaf-only statistics -/

theorem diffNode_sizeOf_pos (t : DiffNode) : 0 < sizeOf t := by
  cases t
  simp only [DiffNode.mk.sizeOf_spec]
  omega

theorem nodesOf_none (t : DiffNode) (h : t.children = none) :
    nodesOf t = [t] := by
  rw [nodesOf]
  split
  · rfl
  · rename_i cs hcs
    rw [h] at hcs
    exact absurd hcs (by simp)

theorem nodesOf_some (t : DiffNode) (cs : List DiffNode)
    (h : t.children = some cs) : nodesOf t = t :: nodesList cs := by
  rw [nodesOf]
  split
  · rename_i hnone
    rw [h] at hnone
    exact absurd hnone (by simp)
  · rename_i cs' hcs
    rw [h] at hcs
    cases hcs
    rfl

theorem leafCountList_nil (leaf bucket : DiffNode → Bool) :
    leafCountList leaf bucket [] = 0 := by
  simp [leafCountList, nodesList]

theorem leafCountList_cons (leaf bucket : DiffNode → Bool) (c : DiffNode)
    (cs : List DiffNode) :
    leafCountList leaf bucket (c :: cs) =
      leafCount leaf bucket c + leafCountList leaf bucket cs := by
  simp [leafCountList, leafCount, nodesList]

theorem leafCount_none (leaf bucket : DiffNode → Bool) (t : DiffNode)
    (h : t.children = none) :
    leafCount leaf bucket t = (if leaf t && bucket t then 1 else 0) := by
  rw [leafCount, nodesOf_none t h]
  by_cases hb : leaf t && bucket t <;> simp [hb]

theorem leafCount_some (leaf bucket : DiffNode → Bool) (t : DiffNode)
    (cs : List DiffNode) (h : t.children = some cs) :
    leafCount leaf bucket t =
      (if leaf t && bucket t then 1 else 0) + leafCountList leaf bucket cs := by
  rw [leafCount, nodesOf_some t cs h]
  by_cases hb : leaf t && bucket t <;> simp [hb, leafCountList, Nat.add_comm]

/-- Componentwise form of `getDiffStats`'s per-node bump. -/
theorem statBase_eq (t : DiffNode) :
    (if isStatLeaf t then
       if t.type == "added" then (⟨1, 0, 0, 0⟩ : DiffStats)
       else if t.type == "removed" then ⟨0, 1, 0, 0⟩
       else if t.type == "modified" then ⟨0, 0, 1, 0⟩
       else ⟨0, 0, 0, 1⟩
     else ⟨0, 0, 0, 0⟩) =
    ⟨if isStatLeaf t && (t.type == "added") then 1 else 0,
     if isStatLeaf t && (t.type == "removed") then 1 else 0,
     if isStatLeaf t && (t.type == "modified") then 1 else 0,
     if isStatLeaf t &&
         !((t.type == "added") || (t.type == "removed") || (t.type == "modified"))
       then 1 else 0⟩ := by
  by_cases hL : isStatLeaf t
  · by_cases hA : t.type = "added"
    · simp [hL, hA]
    · by_cases hR : t.type = "removed"
      · simp [hL, hA, hR]
      · by_cases hM : t.type = "modified"
        · simp [hL, hA, hR, hM]
        · simp [hL, hA, hR, hM]
  · simp [hL]

/-- Componentwise form of `countChanges`'s per-node bump. -/
theorem changeBase_eq (t : DiffNode) :
    (if t.type == "added" && t.children.isNone then (⟨1, 0, 0⟩ : ChangeCounts)
     else if t.type == "removed" && t.children.isNone then ⟨0, 1, 0⟩
     else if t.type == "modified" && t.children.isNone then ⟨0, 0, 1⟩
     else ⟨0, 0, 0⟩) =
    ⟨if t.children.isNone && (t.type == "added") then 1 else 0,
     if t.children.isNone && (t.type == "removed") then 1 else 0,
     if t.children.isNone && (t.type == "modified") then 1 else 0⟩ := by
  by_cases hN : t.children.isNone
  · by_cases hA : t.type = "added"
    · simp [hN, hA]
    · by_cases hR : t.type = "removed"
      · simp [hN, hA, hR]
      · by_cases hM : t.type = "modified"
        · simp [hN, hA, hR, hM]
        · simp [hN, hA, hR, hM]
  · simp [hN]

theorem getDiffStats_none (t : DiffNode) (h : t.children = none) :
    getDiffStats t =
      (if isStatLeaf t then
         if t.type == "added" then (⟨1, 0, 0, 0⟩ : DiffStats)
         else if t.type == "removed" then ⟨0, 1, 0, 0⟩
         else if t.type == "modified" then ⟨0, 0, 1, 0⟩
         else ⟨0, 0, 0, 1⟩
       else ⟨0, 0, 0, 0⟩) := by
  rw [getDiffStats]
  split
  · rfl
  · rename_i cs hcs
    rw [h] at hcs
    exact absurd hcs (by simp)

theorem getDiffStats_some (t : DiffNode) (cs : List DiffNode)
    (h : t.children = some cs) :
    getDiffStats t =
      DiffStats.add
        (if isStatLeaf t then
           if t.type == "added" then (⟨1, 0, 0, 0⟩ : DiffStats)
           else if t.type == "removed" then ⟨0, 1, 0, 0⟩
           else if t.type == "modified" then ⟨0, 0, 1, 0⟩
           else ⟨0, 0, 0, 1⟩
         else ⟨0, 0, 0, 0⟩)
        (getDiffStatsList cs) := by
  rw [getDiffStats]
  split
  · rename_i hnone
    rw [h] at hnone
    exact absurd hnone (by simp)
  · rename_i cs' hcs
    rw [h] at hcs
    cases hcs
    rfl

theorem countChanges_none (t : DiffNode) (h : t.children = none) :
    countChanges t =
      (if t.type == "added" && t.children.isNone then (⟨1, 0, 0⟩ : ChangeCounts)
       else if t.type == "removed" && t.children.isNone then ⟨0, 1, 0⟩
       else if t.type == "modified" && t.children.isNone then ⟨0, 0, 1⟩
       else ⟨0, 0, 0⟩) := by
  rw [countChanges]
  split
  · rfl
  · rename_i cs hcs
    rw [h] at hcs
    exact absurd hcs (by simp)

theorem countChanges_some (t : DiffNode) (cs : List DiffNode)
    (h : t.children = some cs) :
    countChanges t =
      ChangeCounts.add
        (if t.type == "added" && t.children.isNone then (⟨1, 0, 0⟩ : ChangeCounts)
         else if t.type == "removed" && t.children.isNone then ⟨0, 1, 0⟩
         else if t.type == "modified" && t.children.isNone then ⟨0, 0, 1⟩
         else ⟨0, 0, 0⟩)
        (countChangesList cs) := by
  rw [countChanges]
  split
  · rename_i hnone
    rw [h] at hnone
    exact absurd hnone (by simp)
  · rename_i cs' hcs
    rw [h] at hcs
    cases hcs
    rfl

/-- `getDiffStats` computes exactly the null-or-empty-children leaf counts,
and `countChanges` exactly the null-children leaf counts (strong induction
bundling the node and list traversals). -/
theorem stats_leaf_only_aux : ∀ n : Nat,
    (∀ t : DiffNode, sizeOf t ≤ n →
      getDiffStats t =
        ⟨leafCount isStatLeaf (fun m => m.type == "added") t,
         leafCount isStatLeaf (fun m => m.type == "removed") t,
         leafCount isStatLeaf (fun m => m.type == "modified") t,
         leafCount isStatLeaf
           (fun m => !((m.type == "added") || (m.type == "removed") ||
             (m.type == "modified"))) t⟩ ∧
      countChanges t =
        ⟨leafCount (fun m => m.children.isNone) (fun m => m.type == "added") t,
         leafCount (fun m => m.children.isNone) (fun m => m.type == "removed") t,
         leafCount (fun m => m.children.isNone) (fun m => m.type == "modified") t⟩) ∧
    (∀ l : List DiffNode, sizeOf l ≤ n →
      getDiffStatsList l =
        ⟨leafCountList isStatLeaf (fun m => m.type == "added") l,
         leafCountList isStatLeaf (fun m => m.type == "removed") l,
         leafCountList isStatLeaf (fun m => m.type == "modified") l,
         leafCountList isStatLeaf
           (fun m => !((m.type == "added") || (m.type == "removed") ||
             (m.type == "modified"))) l⟩ ∧
      countChangesList l =
        ⟨leafCountList (fun m => m.children.isNone) (fun m => m.type == "added") l,
         leafCountList (fun m => m.children.isNone) (fun m => m.type == "removed") l,
         leafCountList (fun m => m.children.isNone) (fun m => m.type == "modified") l⟩) := by
  intro n
  induction n with
  | zero =>
    constructor
    · intro t ht
      have := diffNode_sizeOf_pos t
      omega
    · intro l hl
      have : 0 < sizeOf l := by cases l <;> simp
      omega
  | succ n ih =>
    constructor
    · intro t ht
      cases hch : t.children with
      | none =>
        constructor
        · rw [getDiffStats_none t hch, statBase_eq]
          simp only [leafCount_none _ _ t hch]
        · rw [countChanges_none t hch, changeBase_eq]
          simp only [leafCount_none _ _ t hch]
      | some cs =>
        have hcs : sizeOf cs ≤ n := by
          have := sizeOf_children_lt t cs hch
          omega
        have hrec := ih.2 cs hcs
        constructor
        · rw [getDiffStats_some t cs hch, statBase_eq, hrec.1]
          simp only [leafCount_some _ _ t cs hch, DiffStats.add]
        · rw [countChanges_some t cs hch, changeBase_eq, hrec.2]
          simp only [leafCount_some _ _ t cs hch, ChangeCounts.add]
    · intro l hl
      cases l with
      | nil =>
        constructor <;>
          simp [getDiffStatsList, countChangesList, leafCountList_nil]
      | cons c cs =>
        have hc : sizeOf c ≤ n := by
          have : 0 < sizeOf cs := by cases cs <;> simp
          simp only [List.cons.sizeOf_spec] at hl
          omega
        have hcs : sizeOf cs ≤ n := by
          have := diffNode_sizeOf_pos c
          simp only [List.cons.sizeOf_spec] at hl
          omega
        have h1 := ih.1 c hc
        have h2 := ih.2 cs hcs
        rw [getDiffStatsList, countChangesList]
        constructor
        · rw [h1.1, h2.1]
          simp [leafCountList_cons, DiffStats.add]
        · rw [h1.2, h2.2]
          simp [leafCountList_cons, ChangeCounts.add]

/-- C6 (amended): the statistics functions are leaf-only, with `leaf` meaning
a null *or empty* children list for `getDiffStats`: `getDiffStats` counts
every node whose children list is null or empty once under its kind (any kind
other than added/removed/modified counts as unchanged), and excludes
container nodes with at least one child; `countChanges` returns counts for
the three change kinds only, over nodes whose children field is null. -/
theorem stats_leaf_only (t : DiffNode) :
    getDiffStats t =
      ⟨leafCount isStatLeaf (fun m => m.type == "added") t,
       leafCount isStatLeaf (fun m => m.type == "removed") t,
       leafCount isStatLeaf (fun m => m.type == "modified") t,
       leafCount isStatLeaf
         (fun m => !((m.type == "added") || (m.type == "removed") ||
           (m.type == "modified"))) t⟩ ∧
    countChanges t =
      ⟨leafCount (fun m => m.children.isNone) (fun m => m.type == "added") t,
       leafCount (fun m => m.children.isNone) (fun m => m.type == "removed") t,
       leafCount (fun m => m.children.isNone) (fun m => m.type == "modified") t⟩ :=
  (stats_leaf_only_aux (sizeOf t)).1 t le_rfl

/-- Counterexample to C6 as stated: comparing the empty object with itself
yields a container node with an *empty* (not null) children list; the
statistics function counts it (unchanged = 1) although it is not a leaf in
the claim's sense (`children` null), of which the tree has none. -/
theorem getDiffStats_leaf_null_cex :
    ∃ t, compareJSON (some (Json.obj [])) (some (Json.obj [])) "" = some t ∧
      (getDiffStats t).unchanged = 1 ∧
      leafCount (fun n => n.children.isNone)
        (fun n => !((n.type == "added") || (n.type == "removed") ||
          (n.type == "modified"))) t = 0 := by
  refine ⟨DiffNode.mk "unchanged" "" (some (Json.obj [])) (some (Json.obj []))
    none none "object" (some []) (some false) none none, ?_, ?_, ?_⟩
  · have hkeys : sortStrings ((objKeys ([] : List (String × Json)) ++
        objKeys ([] : List (String × Json))).eraseDups) = [] := by
      simp [sortStrings, objKeys, List.eraseDups, List.eraseDups.loop,
        List.mergeSort_nil]
    rw [compareJSON, compareObjects]
    rw [hkeys, compareFields]
    simp [getValueType]
  · rw [getDiffStats_some (DiffNode.mk "unchanged" "" (some (Json.obj []))
        (some (Json.obj [])) none none "object" (some []) (some false) none none)
        [] rfl,
      getDiffStatsList]
    simp [isStatLeaf, DiffStats.add, DiffNode.type, DiffNode.children]
  · rw [leafCount_some (fun n => n.children.isNone)
        (fun n => !((n.type == "added") || (n.type == "removed") ||
          (n.type == "modified")))
        (DiffNode.mk "unchanged" "" (some (Json.obj [])) (some (Json.obj []))
         none none "object" (some []) (some false) none none) [] rfl,
      leafCountList_nil]
    simp [DiffNode.children]

/-! ### C5: `compareJSON` on equal inputs -/

/-- The `hasChanges` discipline of a no-change node: container nodes (with a
children list) carry `hasChanges === false`, leaf nodes have no `hasChanges`
field at all. -/
def noChangeNode (n : DiffNode) : Bool :=
  match n.children with
  | none => n.hasChanges == none
  | some _ => n.hasChanges == some false

theorem nodesList_nil : nodesList [] = [] := by
  rw [nodesList]

theorem nodesList_cons (c : DiffNode) (cs : List DiffNode) :
    nodesList (c :: cs) = nodesOf c ++ nodesList cs := by
  rw [nodesList]

/-- Decorating a node with a key changes neither its `noChangeNode` status nor
its descendants. -/
theorem all_noChange_withKey (t : DiffNode) (k : String) :
    (nodesOf (t.withKey k)).all noChangeNode =
      (nodesOf t).all noChangeNode := by
  cases t with
  | mk ty p o nv ot nt vt ch hc key idx =>
    cases ch with
    | none =>
      rw [nodesOf_none _ (by rfl), nodesOf_none _ (by rfl)]
      rfl
    | some cs =>
      rw [nodesOf_some _ cs (by rfl), nodesOf_some _ cs (by rfl)]
      rfl

/-- Decorating a node with a key and index likewise. -/
theorem all_noChange_withKeyIndex (t : DiffNode) (i : Nat) :
    (nodesOf (t.withKeyIndex i)).all noChangeNode =
      (nodesOf t).all noChangeNode := by
  cases t with
  | mk ty p o nv ot nt vt ch hc key idx =>
    cases ch with
    | none =>
      rw [nodesOf_none _ (by rfl), nodesOf_none _ (by rfl)]
      rfl
    | some cs =>
      rw [nodesOf_some _ cs (by rfl), nodesOf_some _ cs (by rfl)]
      rfl

theorem withKey_type (t : DiffNode) (k : String) :
    (t.withKey k).type = t.type := by
  cases t; rfl

theorem withKeyIndex_type (t : DiffNode) (i : Nat) :
    (t.withKeyIndex i).type = t.type := by
  cases t; rfl

theorem noChangeNode_container (ty p : String) (o nv : Option Json)
    (ot nt : Option String) (vt : String) (cs : List DiffNode)
    (hc : Option Bool) (ky : Option (String ⊕ Nat)) (idx : Option Nat) :
    noChangeNode (DiffNode.mk ty p o nv ot nt vt (some cs) hc ky idx) =
      (hc == some false) := rfl

theorem noChangeNode_leaf (ty p : String) (o nv : Option Json)
    (ot nt : Option String) (vt : String) (hc : Option Bool)
    (ky : Option (String ⊕ Nat)) (idx : Option Nat) :
    noChangeNode (DiffNode.mk ty p o nv ot nt vt none hc ky idx) =
      (hc == none) := rfl

/-- Comparing any JSON value with itself yields an `unchanged` node whose
whole subtree obeys the no-change `hasChanges` discipline; the key and index
loops on the diagonal accumulate `hasChanges = false` (strong induction on
value size, bundling the three mutually recursive comparison functions). -/
theorem compareJSON_self_aux : ∀ n : Nat,
    (∀ v : Json, sizeOf v ≤ n → ∀ path : String,
      ∃ t, compareJSON (some v) (some v) path = some t ∧
        t.type = "unchanged" ∧ (nodesOf t).all noChangeNode = true) ∧
    (∀ o : List (String × Json), sizeOf o ≤ n →
      ∀ (path : String) (ks : List String),
        (compareFields o o path ks).2 = false ∧
        (nodesList (compareFields o o path ks).1).all noChangeNode = true) ∧
    (∀ o : List Json, sizeOf o ≤ n → ∀ (path : String) (rem i : Nat),
      (compareElems o o path rem i).2 = false ∧
      (nodesList (compareElems o o path rem i).1).all noChangeNode = true) := by
  intro n
  induction n using Nat.strong_induction_on with
  | _ n ih =>
    have partFields : ∀ o : List (String × Json), sizeOf o ≤ n →
        ∀ (path : String) (ks : List String),
          (compareFields o o path ks).2 = false ∧
          (nodesList (compareFields o o path ks).1).all noChangeNode = true := by
      intro o ho path ks
      induction ks with
      | nil =>
        rw [compareFields]
        simp [nodesList_nil]
      | cons k ks ihks =>
        rw [compareFields]
        cases hl : List.lookup k o with
        | none =>
          rw [compareJSON]
          exact ihks
        | some w =>
          have hwlt : sizeOf w < n := by
            have h1 := List.sizeOf_lt_of_mem (lookup_mem o k w hl)
            have h2 : sizeOf w < sizeOf (k, w) := by simp
            omega
          obtain ⟨t, ht, htype, hall⟩ :=
            (ih (sizeOf w) hwlt).1 w le_rfl (childPathKey path k)
          rw [ht]
          constructor
          · simp [htype, ihks.1]
          · rw [nodesList_cons]
            simp [List.all_append, all_noChange_withKey, hall, ihks.2]
    have partElems : ∀ o : List Json, sizeOf o ≤ n →
        ∀ (path : String) (rem i : Nat),
          (compareElems o o path rem i).2 = false ∧
          (nodesList (compareElems o o path rem i).1).all noChangeNode = true := by
      intro o ho path rem
      induction rem with
      | zero =>
        intro i
        rw [compareElems]
        simp [nodesList_nil]
      | succ rem ihrem =>
        intro i
        rw [compareElems]
        cases hl : o[i]? with
        | none =>
          rw [compareJSON]
          exact ihrem (i + 1)
        | some w =>
          have hwlt : sizeOf w < n := by
            have h1 := List.sizeOf_lt_of_mem (List.getElem?_mem hl)
            omega
          obtain ⟨t, ht, htype, hall⟩ :=
            (ih (sizeOf w) hwlt).1 w le_rfl (childPathIdx path i)
          rw [ht]
          constructor
          · simp [htype, (ihrem (i + 1)).1]
          · rw [nodesList_cons]
            simp [List.all_append, all_noChange_withKeyIndex, hall,
              (ihrem (i + 1)).2]
    refine ⟨?_, partFields, partElems⟩
    intro v hv path
    cases v with
    | null =>
      rw [compareJSON]
      rw [if_neg (by simp)]
      refine ⟨DiffNode.mk "unchanged" path (some Json.null) (some Json.null)
        none none (getValueType (some Json.null)) none none none none,
        by
          have hT : jsonStrictEq Json.null Json.null = true := by simp [jsonStrictEq]
          exact if_pos hT,
        rfl, ?_⟩
      rw [nodesOf_none _ (by rfl)]
      simp [noChangeNode_leaf]
      all_goals exact fun a b h1 h2 => Json.noConfusion h1
    | bool b =>
      rw [compareJSON]
      rw [if_neg (by simp)]
      refine ⟨DiffNode.mk "unchanged" path (some (Json.bool b))
        (some (Json.bool b)) none none (getValueType (some (Json.bool b)))
        none none none none,
        by
          have hT : jsonStrictEq (Json.bool b) (Json.bool b) = true := by simp [jsonStrictEq]
          exact if_pos hT,
        rfl, ?_⟩
      rw [nodesOf_none _ (by rfl)]
      simp [noChangeNode_leaf]
      all_goals exact fun a b h1 h2 => Json.noConfusion h1
    | num q =>
      rw [compareJSON]
      rw [if_neg (by simp)]
      refine ⟨DiffNode.mk "unchanged" path (some (Json.num q))
        (some (Json.num q)) none none (getValueType (some (Json.num q)))
        none none none none,
        by
          have hT : jsonStrictEq (Json.num q) (Json.num q) = true := by simp [jsonStrictEq]
          exact if_pos hT,
        rfl, ?_⟩
      rw [nodesOf_none _ (by rfl)]
      simp [noChangeNode_leaf]
      all_goals exact fun a b h1 h2 => Json.noConfusion h1
    | str s =>
      rw [compareJSON]
      rw [if_neg (by simp)]
      refine ⟨DiffNode.mk "unchanged" path (some (Json.str s))
        (some (Json.str s)) none none (getValueType (some (Json.str s)))
        none none none none,
        by
          have hT : jsonStrictEq (Json.str s) (Json.str s) = true := by simp [jsonStrictEq]
          exact if_pos hT,
        rfl, ?_⟩
      rw [nodesOf_none _ (by rfl)]
      simp [noChangeNode_leaf]
      all_goals exact fun a b h1 h2 => Json.noConfusion h1
    | obj oo =>
      have hoo : sizeOf oo ≤ n := by
        simp only [Json.obj.sizeOf_spec] at hv
        omega
      have hF := partFields oo hoo path
        (sortStrings ((objKeys oo ++ objKeys oo).eraseDups))
      rw [compareJSON]
      rw [if_neg (by simp)]
      rw [compareObjects]
      refine ⟨_, rfl, ?_, ?_⟩
      · simp [DiffNode.type, hF.1]
      · rw [nodesOf_some _ _ (by rfl), List.all_cons, noChangeNode_container]
        simp [hF.1, hF.2]
    | arr oa =>
      have hoa : sizeOf oa ≤ n := by
        simp only [Json.arr.sizeOf_spec] at hv
        omega
      have hE := partElems oa hoa path (max oa.length oa.length) 0
      rw [max_self] at hE
      rw [compareJSON]
      rw [if_neg (by simp)]
      rw [compareArrays]
      refine ⟨_, rfl, ?_, ?_⟩
      · simp [DiffNode.type, hE.1]
      · rw [nodesOf_some _ _ (by rfl), List.all_cons, noChangeNode_container]
        simp [hE.1, hE.2]

/-- C5: counterexample to the literal claim. Comparing the number 1 with
itself produces a leaf node whose `hasChanges` field is absent (not `false`):
under strict equality `hasChanges === false` fails, so not every node of the
tree has `hasChanges === false`. -/
theorem compareJSON_self_hasChanges_cex :
    ∃ t, compareJSON (some (Json.num 1)) (some (Json.num 1)) "" = some t ∧
      (nodesOf t).all (fun n => n.hasChanges == some false) = false := by
  have h : compareJSON (some (Json.num 1)) (some (Json.num 1)) "" =
      some (DiffNode.mk "unchanged" "" (some (Json.num 1)) (some (Json.num 1))
        none none (getValueType (some (Json.num 1))) none none none none) := by
    rw [compareJSON]
    · rw [if_neg (by simp)]
      exact if_pos (by simp [jsonStrictEq])
    all_goals exact fun a b h1 h2 => Json.noConfusion h1
  refine ⟨_, h, ?_⟩
  rw [nodesOf_none _ (by rfl)]
  simp [DiffNode.hasChanges]

/-- C5 (amended): comparing any JSON value with itself yields a tree whose
root is `unchanged` and in which every node obeys the no-change discipline:
container nodes carry `hasChanges = false`, leaf nodes have no `hasChanges`
field at all — so no node of the tree ever reports a change. -/
theorem compare_self_no_changes (v : Json) (path : String) :
    ∃ t, compareJSON (some v) (some v) path = some t ∧
      t.type = "unchanged" ∧ (nodesOf t).all noChangeNode = true :=
  (compareJSON_self_aux (sizeOf v)).1 v le_rfl path

/-! ### The modification detector (`findBestMatches`, `detectModifications`) -/

/-- One `{ removedIdx, addedIdx, removed, added, ratio }` match object pushed
by the greedy loop of `findBestMatches`. -/
structure MatchPair where
  removedIdx : Nat
  addedIdx : Nat
  removed : DiffEntry
  added : DiffEntry
  ratio : ℚ
deriving DecidableEq, Repr

/-- `similarities[i][j]`: the ratio of `areSimilar(removed[i].leftContent,
added[j].rightContent)` if similar, else 0 (out-of-range indices give 0). -/
def simMatrix (removed added : List DiffEntry) (i j : Nat) : ℚ :=
  match removed[i]?, added[j]? with
  | some r, some a =>
    let s := areSimilar r.leftContent a.rightContent
    if s.similar then s.ratio else 0
  | _, _ => 0

/-- The row-major enumeration of the index pairs `(i, j)` with `i < m`,
`j < n`, in the order the source's nested `for` loops visit them. -/
def pairsRM (m n : Nat) : List (Nat × Nat) :=
  (List.range m).flatMap fun i => (List.range n).map fun j => (i, j)

/-- One step of the inner scan of the greedy loop: skip used rows and
columns, and update the running best only on a strictly larger similarity
(`similarities[i][j] > bestRatio`). -/
def scanStep (sim : Nat → Nat → ℚ) (ur ua : List Nat)
    (best : Option (Nat × Nat) × ℚ) (p : Nat × Nat) : Option (Nat × Nat) × ℚ :=
  if p.1 ∈ ur ∨ p.2 ∈ ua then best
  else if best.2 < sim p.1 p.2 then (some p, sim p.1 p.2) else best

/-- The inner double loop of `findBestMatches`: scan all pairs in row-major
order starting from `bestRatio = 0` and no best index. -/
def findBest (sim : Nat → Nat → ℚ) (m n : Nat) (ur ua : List Nat) :
    Option (Nat × Nat) × ℚ :=
  (pairsRM m n).foldl (scanStep sim ur ua) (none, 0)

/-- The greedy `while` loop of `findBestMatches`: while neither side is
exhausted, find the best remaining pair; if its ratio is positive, record the
match and mark both indices used, otherwise break.  The loop adds one index
to each used set per iteration, so any fuel larger than the list lengths is
enough for the recursion to mirror the loop exactly. -/
def greedyLoop (sim : Nat → Nat → ℚ) (removed added : List DiffEntry) :
    Nat → List Nat → List Nat → List MatchPair
  | 0, _, _ => []
  | fuel + 1, ur, ua =>
    if ur.length < removed.length ∧ ua.length < added.length then
      match findBest sim removed.length added.length ur ua with
      | (some (i, j), r) =>
        if 0 < r then
          ⟨i, j, removed.getD i default, added.getD j default, r⟩ ::
            greedyLoop sim removed added fuel (i :: ur) (j :: ua)
        else []
      | (none, _) => []
    else []

/-- `findBestMatches removed added`: empty on an empty side, else the greedy
loop over the similarity matrix. -/
def findBestMatches (removed added : List DiffEntry) : List MatchPair :=
  if removed.length = 0 ∨ added.length = 0 then []
  else
    greedyLoop (simMatrix removed added) removed added
      (removed.length + added.length) [] []

/-- `diff[i].type === 'removed'`. -/
def isRemoved (e : DiffEntry) : Bool := e.type == .removed

/-- `diff[i].type === 'added'`. -/
def isAdded (e : DiffEntry) : Bool := e.type == .added

/-- The plain `removed` entry `detectModifications` pushes for an unmatched
(or block-only) removed line. -/
def mkRemoved (e : DiffEntry) : DiffEntry :=
  ⟨.removed, e.leftLine, none, e.leftContent, none, none⟩

/-- The plain `added` entry `detectModifications` pushes for an unmatched
(or block-only) added line. -/
def mkAdded (e : DiffEntry) : DiffEntry :=
  ⟨.added, none, e.rightLine, none, e.rightContent, none⟩

/-- The `modified` entry pushed for a matched pair: both sides' lines and
content, plus the match ratio as `similarity`. -/
def mkModified (mp : MatchPair) : DiffEntry :=
  ⟨.modified, mp.removed.leftLine, mp.added.rightLine, mp.removed.leftContent,
    mp.added.rightContent, some mp.ratio⟩

/-- The comparator `(a, b) => a.removedIdx - b.removedIdx` of the stable
sort applied to the matches. -/
def mSortLe (x y : MatchPair) : Bool := x.removedIdx ≤ y.removedIdx

/-- The unmatched removed lines of a block, in original order. -/
def unmatchedRemovedOut (rem : List DiffEntry) (ms : List MatchPair) :
    List DiffEntry :=
  ((List.range rem.length).filter fun r => ms.all fun mp => mp.removedIdx != r).map
    fun r => mkRemoved (rem.getD r default)

/-- The unmatched added lines of a block, in original order. -/
def unmatchedAddedOut (ad : List DiffEntry) (ms : List MatchPair) :
    List DiffEntry :=
  ((List.range ad.length).filter fun a => ms.all fun mp => mp.addedIdx != a).map
    fun a => mkAdded (ad.getD a default)

/-- The output of one removed-then-added block of `detectModifications`:
unmatched removed lines in original order, then the matched pairs as
`modified` entries sorted (stably) by removed index, then unmatched added
lines in original order. -/
def processBlock (rem ad : List DiffEntry) : List DiffEntry :=
  unmatchedRemovedOut rem (findBestMatches rem ad) ++
    ((findBestMatches rem ad).mergeSort mSortLe).map mkModified ++
    unmatchedAddedOut ad (findBestMatches rem ad)

/-- Splice of `takeWhile` and `dropWhile` lengths. -/
theorem length_takeWhile_add_dropWhile {α : Type} (p : α → Bool) (l : List α) :
    (l.takeWhile p).length + (l.dropWhile p).length = l.length := by
  conv_rhs => rw [← List.takeWhile_append_dropWhile (p := p) (l := l)]
  rw [List.length_append]

/-- `detectModifications`: collect the leading run of removed lines, then
the following run of added lines; if both are present, process the block
with greedy matching; if only one is present, re-emit its lines plainly; if
neither, pass the head entry through, and continue with the rest. -/
def detectMods : List DiffEntry → List DiffEntry
  | [] => []
  | e :: tl =>
    if _h1 : (e :: tl).takeWhile isRemoved ≠ [] ∧
        ((e :: tl).dropWhile isRemoved).takeWhile isAdded ≠ [] then
      processBlock ((e :: tl).takeWhile isRemoved)
          (((e :: tl).dropWhile isRemoved).takeWhile isAdded) ++
        detectMods (((e :: tl).dropWhile isRemoved).dropWhile isAdded)
    else if _h2 : (e :: tl).takeWhile isRemoved ≠ [] then
      ((e :: tl).takeWhile isRemoved).map mkRemoved ++
        detectMods (((e :: tl).dropWhile isRemoved).dropWhile isAdded)
    else if _h3 : ((e :: tl).dropWhile isRemoved).takeWhile isAdded ≠ [] then
      (((e :: tl).dropWhile isRemoved).takeWhile isAdded).map mkAdded ++
        detectMods (((e :: tl).dropWhile isRemoved).dropWhile isAdded)
    else
      e :: detectMods tl
termination_by d => d.length
decreasing_by
  · have a1 := length_takeWhile_add_dropWhile isRemoved (e :: tl)
    have a2 := length_takeWhile_add_dropWhile isAdded
      ((e :: tl).dropWhile isRemoved)
    have a3 : 0 < ((e :: tl).takeWhile isRemoved).length :=
      List.length_pos.mpr _h1.1
    simp only [List.length_cons] at a1 ⊢
    omega
  · have a1 := length_takeWhile_add_dropWhile isRemoved (e :: tl)
    have a2 := length_takeWhile_add_dropWhile isAdded
      ((e :: tl).dropWhile isRemoved)
    have a3 : 0 < ((e :: tl).takeWhile isRemoved).length :=
      List.length_pos.mpr _h2
    simp only [List.length_cons] at a1 ⊢
    omega
  · have a1 := length_takeWhile_add_dropWhile isRemoved (e :: tl)
    have a2 := length_takeWhile_add_dropWhile isAdded
      ((e :: tl).dropWhile isRemoved)
    have a3 : 0 < (((e :: tl).dropWhile isRemoved).takeWhile isAdded).length :=
      List.length_pos.mpr _h3
    simp only [List.length_cons] at a1 ⊢
    omega
  · simp

/-! ### C3: greedy matching and block ordering -/

/-- Strict row-major order on index pairs. -/
def rmLT (p q : Nat × Nat) : Prop := p.1 < q.1 ∨ (p.1 = q.1 ∧ p.2 < q.2)

/-- Weak row-major order on index pairs (earlier or equal in the row-major
scan). -/
def rmLe (p q : Nat × Nat) : Prop := p.1 < q.1 ∨ (p.1 = q.1 ∧ p.2 ≤ q.2)

theorem rmLT_rmLe {p q : Nat × Nat} (h : rmLT p q) : rmLe p q := by
  rcases h with h | ⟨h1, h2⟩
  · exact Or.inl h
  · exact Or.inr ⟨h1, le_of_lt h2⟩

theorem pairsRM_mem (m n : Nat) (p : Nat × Nat) :
    p ∈ pairsRM m n ↔ p.1 < m ∧ p.2 < n := by
  cases p with
  | mk i j =>
    simp only [pairsRM, List.mem_flatMap, List.mem_map, List.mem_range,
      Prod.mk.injEq]
    constructor
    · rintro ⟨a, ha, b, hb, h1, h2⟩
      subst h1; subst h2; exact ⟨ha, hb⟩
    · rintro ⟨hi, hj⟩
      exact ⟨i, hi, j, hj, rfl, rfl⟩

theorem pairsRM_sorted (m n : Nat) : (pairsRM m n).Pairwise rmLT := by
  induction m with
  | zero => simp [pairsRM]
  | succ m ih =>
    have hd : pairsRM (m + 1) n =
        pairsRM m n ++ (List.range n).map (fun j => (m, j)) := by
      rw [pairsRM, List.range_succ, List.flatMap_append]
      simp [pairsRM]
    rw [hd]
    refine List.pairwise_append.mpr ⟨ih, ?_, ?_⟩
    · refine List.pairwise_map.mpr ?_
      exact (List.pairwise_lt_range n).imp fun h => Or.inr ⟨rfl, h⟩
    · intro p hp q hq
      have hp1 : p.1 < m := ((pairsRM_mem m n p).mp hp).1
      rcases List.mem_map.mp hq with ⟨j, _, hj⟩
      subst hj
      exact Or.inl hp1

/-- The inner scan computes the first row-major maximum: either it returns
`(none, 0)` and every available similarity in the scanned list is
nonpositive, or it returns some pair `p` whose similarity is positive,
maximal among the available scanned pairs, and strictly larger than every
available similarity scanned before `p`. -/
theorem scan_firstMax (sim : Nat → Nat → ℚ) (ur ua : List Nat)
    (L : List (Nat × Nat)) :
    (L.foldl (scanStep sim ur ua) (none, 0) = (none, 0) ∧
      ∀ p ∈ L, p.1 ∉ ur → p.2 ∉ ua → sim p.1 p.2 ≤ 0) ∨
    (∃ pre p post, L = pre ++ p :: post ∧
      L.foldl (scanStep sim ur ua) (none, 0) = (some p, sim p.1 p.2) ∧
      p.1 ∉ ur ∧ p.2 ∉ ua ∧ 0 < sim p.1 p.2 ∧
      (∀ q ∈ L, q.1 ∉ ur → q.2 ∉ ua → sim q.1 q.2 ≤ sim p.1 p.2) ∧
      (∀ q ∈ pre, q.1 ∉ ur → q.2 ∉ ua → sim q.1 q.2 < sim p.1 p.2)) := by
  induction L using List.reverseRecOn with
  | nil => exact Or.inl ⟨rfl, by simp⟩
  | append_singleton L q ih =>
    rw [List.foldl_append, List.foldl_cons, List.foldl_nil]
    rcases ih with ⟨hres, hall⟩ | ⟨pre, p, post, hdec, hres, hur, hua, hpos, hmax, hstrict⟩
    · rw [hres]
      by_cases hq : q.1 ∈ ur ∨ q.2 ∈ ua
      · left
        rw [scanStep, if_pos hq]
        refine ⟨rfl, ?_⟩
        intro r hr h1 h2
        rcases List.mem_append.mp hr with hr | hr
        · exact hall r hr h1 h2
        · simp only [List.mem_singleton] at hr
          subst hr
          rcases hq with hq | hq
          · exact absurd hq h1
          · exact absurd hq h2
      · push_neg at hq
        by_cases hpos' : (0 : ℚ) < sim q.1 q.2
        · right
          rw [scanStep, if_neg (by push_neg; exact hq)]
          rw [if_pos (by simpa using hpos')]
          refine ⟨L, q, [], by simp, rfl, hq.1, hq.2, hpos', ?_, ?_⟩
          · intro r hr h1 h2
            rcases List.mem_append.mp hr with hr | hr
            · exact le_of_lt (lt_of_le_of_lt (hall r hr h1 h2) hpos')
            · simp only [List.mem_singleton] at hr
              subst hr
              exact le_refl _
          · intro r hr h1 h2
            exact lt_of_le_of_lt (hall r hr h1 h2) hpos'
        · left
          rw [scanStep, if_neg (by push_neg; exact hq)]
          rw [if_neg (by simpa using hpos')]
          refine ⟨rfl, ?_⟩
          intro r hr h1 h2
          rcases List.mem_append.mp hr with hr | hr
          · exact hall r hr h1 h2
          · simp only [List.mem_singleton] at hr
            subst hr
            exact le_of_not_lt hpos'
    · rw [hres]
      by_cases hq : q.1 ∈ ur ∨ q.2 ∈ ua
      · right
        rw [scanStep, if_pos hq]
        refine ⟨pre, p, post ++ [q], by rw [hdec]; simp, rfl, hur, hua, hpos, ?_, hstrict⟩
        intro r hr h1 h2
        rcases List.mem_append.mp hr with hr | hr
        · exact hmax r hr h1 h2
        · simp only [List.mem_singleton] at hr
          subst hr
          rcases hq with hq | hq
          · exact absurd hq h1
          · exact absurd hq h2
      · push_neg at hq
        by_cases hlt : sim p.1 p.2 < sim q.1 q.2
        · right
          rw [scanStep, if_neg (by push_neg; exact hq)]
          rw [if_pos (by simpa using hlt)]
          refine ⟨L, q, [], by simp, rfl, hq.1, hq.2, lt_trans hpos hlt, ?_, ?_⟩
          · intro r hr h1 h2
            rcases List.mem_append.mp hr with hr | hr
            · exact le_of_lt (lt_of_le_of_lt (hmax r hr h1 h2) hlt)
            · simp only [List.mem_singleton] at hr
              subst hr
              exact le_refl _
          · intro r hr h1 h2
            exact lt_of_le_of_lt (hmax r hr h1 h2) hlt
        · right
          rw [scanStep, if_neg (by push_neg; exact hq)]
          rw [if_neg (by simpa using hlt)]
          refine ⟨pre, p, post ++ [q], by rw [hdec]; simp, rfl, hur, hua, hpos, ?_, hstrict⟩
          intro r hr h1 h2
          rcases List.mem_append.mp hr with hr | hr
          · exact hmax r hr h1 h2
          · simp only [List.mem_singleton] at hr
            subst hr
            exact le_of_not_lt hlt

/-- `findBest` finds the first row-major maximum of the available
similarities, or reports that none is positive. -/
theorem findBest_spec (sim : Nat → Nat → ℚ) (m n : Nat) (ur ua : List Nat) :
    (findBest sim m n ur ua = (none, 0) ∧
      ∀ i j, i < m → j < n → i ∉ ur → j ∉ ua → sim i j ≤ 0) ∨
    (∃ i j, findBest sim m n ur ua = (some (i, j), sim i j) ∧
      i < m ∧ j < n ∧ i ∉ ur ∧ j ∉ ua ∧ 0 < sim i j ∧
      (∀ i' j', i' < m → j' < n → i' ∉ ur → j' ∉ ua → sim i' j' ≤ sim i j) ∧
      (∀ i' j', i' < m → j' < n → i' ∉ ur → j' ∉ ua → sim i' j' = sim i j →
        rmLe (i, j) (i', j'))) := by
  rcases scan_firstMax sim ur ua (pairsRM m n) with ⟨hres, hall⟩ |
    ⟨pre, p, post, hdec, hres, hur, hua, hpos, hmax, hstrict⟩
  · left
    refine ⟨hres, ?_⟩
    intro i j hi hj h1 h2
    exact hall (i, j) ((pairsRM_mem m n (i, j)).mpr ⟨hi, hj⟩) h1 h2
  · right
    obtain ⟨i, j⟩ := p
    have hpmem : (i, j) ∈ pairsRM m n := by
      rw [hdec]; exact List.mem_append_right _ (List.mem_cons_self _ _)
    have hij := (pairsRM_mem m n (i, j)).mp hpmem
    refine ⟨i, j, hres, hij.1, hij.2, hur, hua, hpos, ?_, ?_⟩
    · intro i' j' hi' hj' h1 h2
      exact hmax (i', j') ((pairsRM_mem m n (i', j')).mpr ⟨hi', hj'⟩) h1 h2
    · intro i' j' hi' hj' h1 h2 heq
      have hq : (i', j') ∈ pairsRM m n := (pairsRM_mem m n (i', j')).mpr ⟨hi', hj'⟩
      rw [hdec] at hq
      rcases List.mem_append.mp hq with hq | hq
      · exact absurd heq (ne_of_lt (hstrict (i', j') hq h1 h2))
      · rcases List.mem_cons.mp hq with hq | hq
        · rw [Prod.mk.injEq] at hq
          exact Or.inr ⟨hq.1.symm, le_of_eq hq.2.symm⟩
        · have hs := pairsRM_sorted m n
          rw [hdec] at hs
          have hs2 := (List.pairwise_append.mp hs).2.1
          exact rmLT_rmLe ((List.pairwise_cons.mp hs2).1 _ hq)

/-- The greedy matching policy as the claim states it: repeatedly take the
highest remaining similarity, ties broken by first occurrence in row-major
scan order, until no remaining similarity exceeds 0 or one side is
exhausted.  The run records the sequence of `(removedIdx, addedIdx, ratio)`
selections. -/
inductive GreedyRun (sim : Nat → Nat → ℚ) (m n : Nat) :
    List Nat → List Nat → List (Nat × Nat × ℚ) → Prop where
  | exhausted {ur ua : List Nat} :
      ¬(ur.length < m ∧ ua.length < n) → GreedyRun sim m n ur ua []
  | noPositive {ur ua : List Nat} :
      (∀ i j, i < m → j < n → i ∉ ur → j ∉ ua → sim i j ≤ 0) →
      GreedyRun sim m n ur ua []
  | pick {ur ua : List Nat} {i j : Nat} {rest : List (Nat × Nat × ℚ)} :
      ur.length < m → ua.length < n →
      i < m → j < n → i ∉ ur → j ∉ ua → 0 < sim i j →
      (∀ i' j', i' < m → j' < n → i' ∉ ur → j' ∉ ua → sim i' j' ≤ sim i j) →
      (∀ i' j', i' < m → j' < n → i' ∉ ur → j' ∉ ua → sim i' j' = sim i j →
        rmLe (i, j) (i', j')) →
      GreedyRun sim m n (i :: ur) (j :: ua) rest →
      GreedyRun sim m n ur ua ((i, j, sim i j) :: rest)

/-- The fueled greedy loop realizes the greedy policy whenever the fuel
covers the remaining removed lines. -/
theorem greedyLoop_run (sim : Nat → Nat → ℚ) (removed added : List DiffEntry) :
    ∀ (fuel : Nat) (ur ua : List Nat),
      removed.length ≤ fuel + ur.length →
      GreedyRun sim removed.length added.length ur ua
        ((greedyLoop sim removed added fuel ur ua).map
          fun mp => (mp.removedIdx, mp.addedIdx, mp.ratio)) := by
  intro fuel
  induction fuel with
  | zero =>
    intro ur ua hf
    rw [greedyLoop]
    simp only [List.map_nil]
    exact GreedyRun.exhausted (by omega)
  | succ fuel ih =>
    intro ur ua hf
    rw [greedyLoop]
    by_cases hc : ur.length < removed.length ∧ ua.length < added.length
    · rw [if_pos hc]
      rcases findBest_spec sim removed.length added.length ur ua with
        ⟨hres, hall⟩ | ⟨i, j, hres, hi, hj, h1, h2, hpos, hmax, hties⟩
      · rw [hres]
        simp only [List.map_nil]
        exact GreedyRun.noPositive hall
      · rw [hres]
        show GreedyRun sim removed.length added.length ur ua
          (List.map (fun mp => (mp.removedIdx, mp.addedIdx, mp.ratio))
            (if 0 < sim i j then
              ({ removedIdx := i, addedIdx := j,
                 removed := removed.getD i default,
                 added := added.getD j default,
                 ratio := sim i j } : MatchPair) ::
                greedyLoop sim removed added fuel (i :: ur) (j :: ua)
            else []))
        rw [if_pos hpos]
        simp only [List.map_cons]
        exact GreedyRun.pick hc.1 hc.2 hi hj h1 h2 hpos hmax hties
          (ih (i :: ur) (j :: ua) (by simp only [List.length_cons]; omega))
    · rw [if_neg hc]
      simp only [List.map_nil]
      exact GreedyRun.exhausted hc

/-- Every match record produced by the greedy loop carries in-range indices,
the entries at those indices, and the positive matrix ratio of the pair. -/
theorem greedyLoop_mem (sim : Nat → Nat → ℚ) (removed added : List DiffEntry) :
    ∀ (fuel : Nat) (ur ua : List Nat),
      ∀ mp ∈ greedyLoop sim removed added fuel ur ua,
        mp.removedIdx < removed.length ∧ mp.addedIdx < added.length ∧
        mp.removed = removed.getD mp.removedIdx default ∧
        mp.added = added.getD mp.addedIdx default ∧
        mp.ratio = sim mp.removedIdx mp.addedIdx ∧ 0 < mp.ratio := by
  intro fuel
  induction fuel with
  | zero =>
    intro ur ua mp hmp
    rw [greedyLoop] at hmp
    exact absurd hmp (List.not_mem_nil mp)
  | succ fuel ih =>
    intro ur ua mp hmp
    rw [greedyLoop] at hmp
    split at hmp
    · split at hmp
      · rename_i hc i j r heq
        split at hmp
        · rename_i hr
          rcases List.mem_cons.mp hmp with hmp | hmp
          · subst hmp
            rcases findBest_spec sim removed.length added.length ur ua with
              ⟨hres, _⟩ | ⟨i', j', hres, hi, hj, _, _, hpos, _, _⟩
            · rw [heq] at hres
              simp at hres
            · rw [heq] at hres
              simp only [Prod.mk.injEq, Option.some.injEq] at hres
              obtain ⟨⟨hii, hjj⟩, hrr⟩ := hres
              subst hii; subst hjj
              exact ⟨hi, hj, rfl, rfl, hrr, hr⟩
          · exact ih _ _ mp hmp
        · exact absurd hmp (List.not_mem_nil mp)
      · exact absurd hmp (List.not_mem_nil mp)
    · exact absurd hmp (List.not_mem_nil mp)

/-- `findBestMatches` realizes the greedy policy on the whole similarity
matrix, starting from empty used sets. -/
theorem findBestMatches_run (removed added : List DiffEntry) :
    GreedyRun (simMatrix removed added) removed.length added.length [] []
      ((findBestMatches removed added).map
        fun mp => (mp.removedIdx, mp.addedIdx, mp.ratio)) := by
  rw [findBestMatches]
  by_cases h : removed.length = 0 ∨ added.length = 0
  · rw [if_pos h]
    simp only [List.map_nil]
    exact GreedyRun.exhausted (by simp only [List.length_nil]; omega)
  · rw [if_neg h]
    exact greedyLoop_run (simMatrix removed added) removed added
      (removed.length + added.length) [] []
      (by simp only [List.length_nil]; omega)

/-- Content of the matches of `findBestMatches`. -/
theorem findBestMatches_mem (removed added : List DiffEntry) :
    ∀ mp ∈ findBestMatches removed added,
      mp.removedIdx < removed.length ∧ mp.addedIdx < added.length ∧
      mp.removed = removed.getD mp.removedIdx default ∧
      mp.added = added.getD mp.addedIdx default ∧
      mp.ratio = simMatrix removed added mp.removedIdx mp.addedIdx ∧
      0 < mp.ratio := by
  intro mp hmp
  rw [findBestMatches] at hmp
  split at hmp
  · exact absurd hmp (List.not_mem_nil mp)
  · exact greedyLoop_mem (simMatrix removed added) removed added _ _ _ mp hmp

theorem takeWhile_append_all {α : Type} (p : α → Bool) (l₁ l₂ : List α)
    (h : ∀ e ∈ l₁, p e = true) :
    (l₁ ++ l₂).takeWhile p = l₁ ++ l₂.takeWhile p := by
  induction l₁ with
  | nil => simp
  | cons a l ih =>
    simp only [List.cons_append, List.takeWhile_cons,
      if_pos (h a (List.mem_cons_self a l))]
    rw [ih fun e he => h e (List.mem_cons_of_mem a he)]

theorem dropWhile_append_all {α : Type} (p : α → Bool) (l₁ l₂ : List α)
    (h : ∀ e ∈ l₁, p e = true) :
    (l₁ ++ l₂).dropWhile p = l₂.dropWhile p := by
  induction l₁ with
  | nil => simp
  | cons a l ih =>
    simp only [List.cons_append, List.dropWhile_cons,
      if_pos (h a (List.mem_cons_self a l))]
    exact ih fun e he => h e (List.mem_cons_of_mem a he)

theorem takeWhile_head_not {α : Type} (p : α → Bool) (l : List α)
    (h : ∀ e, l.head? = some e → p e = false) :
    l.takeWhile p = [] := by
  cases l with
  | nil => rfl
  | cons a l =>
    rw [List.takeWhile_cons, if_neg]
    simp [h a rfl]

theorem dropWhile_head_not {α : Type} (p : α → Bool) (l : List α)
    (h : ∀ e, l.head? = some e → p e = false) :
    l.dropWhile p = l := by
  cases l with
  | nil => rfl
  | cons a l =>
    rw [List.dropWhile_cons, if_neg]
    simp [h a rfl]

theorem isAdded_not_isRemoved (e : DiffEntry) (h : isAdded e = true) :
    isRemoved e = false := by
  simp only [isAdded, beq_iff_eq] at h
  simp [isRemoved, h]

/-- Block decomposition of `detectModifications`: on a nonempty run of
removed entries followed by a nonempty run of added entries, the detector
emits the processed block and continues after it. -/
theorem detectMods_block (rem ad rest : List DiffEntry)
    (hrem : ∀ e ∈ rem, isRemoved e = true)
    (had : ∀ e ∈ ad, isAdded e = true)
    (hrem0 : rem ≠ []) (had0 : ad ≠ [])
    (hrest : ∀ e, rest.head? = some e →
      isRemoved e = false ∧ isAdded e = false) :
    detectMods (rem ++ ad ++ rest) = processBlock rem ad ++ detectMods rest := by
  have hta : (ad ++ rest).takeWhile isRemoved = [] := by
    apply takeWhile_head_not
    intro e he
    cases ad with
    | nil => exact absurd rfl had0
    | cons a l =>
      simp only [List.cons_append, List.head?_cons, Option.some.injEq] at he
      subst he
      exact isAdded_not_isRemoved a (had a (List.mem_cons_self a l))
  have hda : (ad ++ rest).dropWhile isRemoved = ad ++ rest := by
    apply dropWhile_head_not
    intro e he
    cases ad with
    | nil => exact absurd rfl had0
    | cons a l =>
      simp only [List.cons_append, List.head?_cons, Option.some.injEq] at he
      subst he
      exact isAdded_not_isRemoved a (had a (List.mem_cons_self a l))
  rw [List.append_assoc]
  cases rem with
  | nil => exact absurd rfl hrem0
  | cons r0 rem' =>
    have h1 : (r0 :: (rem' ++ (ad ++ rest))).takeWhile isRemoved =
        r0 :: rem' := by
      have h := takeWhile_append_all isRemoved (r0 :: rem') (ad ++ rest) hrem
      simp only [List.cons_append] at h
      rw [h, hta, List.append_nil]
    have h2 : (r0 :: (rem' ++ (ad ++ rest))).dropWhile isRemoved =
        ad ++ rest := by
      have h := dropWhile_append_all isRemoved (r0 :: rem') (ad ++ rest) hrem
      simp only [List.cons_append] at h
      rw [h, hda]
    have h3 : (ad ++ rest).takeWhile isAdded = ad := by
      rw [takeWhile_append_all isAdded ad rest had,
        takeWhile_head_not isAdded rest (fun e he => (hrest e he).2),
        List.append_nil]
    have h4 : (ad ++ rest).dropWhile isAdded = rest := by
      rw [dropWhile_append_all isAdded ad rest had,
        dropWhile_head_not isAdded rest (fun e he => (hrest e he).2)]
    show detectMods (r0 :: (rem' ++ (ad ++ rest))) = _
    rw [detectMods]
    rw [dif_pos ⟨by rw [h1]; exact List.cons_ne_nil r0 rem',
      by rw [h2, h3]; exact had0⟩]
    rw [h1, h2, h3, h4]

theorem mSortLe_trans (a b c : MatchPair) (h1 : mSortLe a b = true)
    (h2 : mSortLe b c = true) : mSortLe a c = true := by
  simp only [mSortLe, decide_eq_true_eq] at h1 h2 ⊢
  omega

theorem mSortLe_total (a b : MatchPair) : (mSortLe a b || mSortLe b a) = true := by
  simp only [mSortLe, Bool.or_eq_true, decide_eq_true_eq]
  omega

/-- C3: for every nonempty run of consecutive removed entries immediately
followed by a nonempty run of consecutive added entries, the detector's
output for the block is the unmatched removed entries in original order,
then the matched pairs as `modified` entries sorted by removed-side
position, then the unmatched added entries in original order; the matched
pairs are selected by the greedy policy (highest remaining similarity
first, ties broken by first occurrence in row-major scan order, stopping
when no similarity exceeds 0 or one side is exhausted), and each match
carries the entries and positive matrix ratio of its index pair. -/
theorem detect_block_law (rem ad rest : List DiffEntry)
    (hrem : ∀ e ∈ rem, isRemoved e = true)
    (had : ∀ e ∈ ad, isAdded e = true)
    (hrem0 : rem ≠ []) (had0 : ad ≠ [])
    (hrest : rest.head?.all (fun e => !isRemoved e && !isAdded e) = true) :
    detectMods (rem ++ ad ++ rest) =
      unmatchedRemovedOut rem (findBestMatches rem ad) ++
        ((findBestMatches rem ad).mergeSort mSortLe).map mkModified ++
        unmatchedAddedOut ad (findBestMatches rem ad) ++ detectMods rest ∧
    ((findBestMatches rem ad).mergeSort mSortLe).Pairwise
      (fun x y => x.removedIdx ≤ y.removedIdx) ∧
    GreedyRun (simMatrix rem ad) rem.length ad.length [] []
      ((findBestMatches rem ad).map
        fun mp => (mp.removedIdx, mp.addedIdx, mp.ratio)) ∧
    ∀ mp ∈ findBestMatches rem ad,
      mp.removedIdx < rem.length ∧ mp.addedIdx < ad.length ∧
      mp.removed = rem.getD mp.removedIdx default ∧
      mp.added = ad.getD mp.addedIdx default ∧
      mp.ratio = simMatrix rem ad mp.removedIdx mp.addedIdx ∧
      0 < mp.ratio := by
  refine ⟨?_, ?_, findBestMatches_run rem ad, findBestMatches_mem rem ad⟩
  · have hrest' : ∀ e, rest.head? = some e →
        isRemoved e = false ∧ isAdded e = false := by
      intro e he
      rw [he] at hrest
      simp only [Option.all_some, Bool.and_eq_true, Bool.not_eq_true'] at hrest
      exact hrest
    rw [detectMods_block rem ad rest hrem had hrem0 had0 hrest']
    rw [processBlock, List.append_assoc, List.append_assoc]
  · exact (List.sorted_mergeSort mSortLe_trans mSortLe_total
      (findBestMatches rem ad)).imp
      fun h => by simpa only [mSortLe, decide_eq_true_eq] using h

/-- A one-line removed block for the C3 witness. -/
def remW : List DiffEntry := [⟨.removed, some 1, none, some ['a'], none, none⟩]

/-- A one-line added block for the C3 witness. -/
def adW : List DiffEntry := [⟨.added, none, some 1, none, some ['a'], none⟩]

theorem detect_block_law_witness :
    (∀ e ∈ remW, isRemoved e = true) ∧ (∀ e ∈ adW, isAdded e = true) ∧
    remW ≠ [] ∧ adW ≠ [] ∧
    (([] : List DiffEntry).head?.all
      (fun e => !isRemoved e && !isAdded e) = true) ∧
    (detectMods (remW ++ adW ++ []) =
      unmatchedRemovedOut remW (findBestMatches remW adW) ++
        ((findBestMatches remW adW).mergeSort mSortLe).map mkModified ++
        unmatchedAddedOut adW (findBestMatches remW adW) ++ detectMods [] ∧
    ((findBestMatches remW adW).mergeSort mSortLe).Pairwise
      (fun x y => x.removedIdx ≤ y.removedIdx) ∧
    GreedyRun (simMatrix remW adW) remW.length adW.length [] []
      ((findBestMatches remW adW).map
        fun mp => (mp.removedIdx, mp.addedIdx, mp.ratio)) ∧
    ∀ mp ∈ findBestMatches remW adW,
      mp.removedIdx < remW.length ∧ mp.addedIdx < adW.length ∧
      mp.removed = remW.getD mp.removedIdx default ∧
      mp.added = adW.getD mp.addedIdx default ∧
      mp.ratio = simMatrix remW adW mp.removedIdx mp.addedIdx ∧
      0 < mp.ratio) :=
  ⟨by decide, by decide, by decide, by decide, by decide,
    detect_block_law remW adW [] (by decide) (by decide) (by decide)
      (by decide) (by decide)⟩

/-! ### C9: shape invariant of the aligner-plus-detector pipeline -/

/-- The claimed shape invariant of a diff entry: `unchanged` and `modified`
entries carry both line numbers, `added` only `rightLine`, `removed` only
`leftLine`. -/
def entryShape (e : DiffEntry) : Bool :=
  match e.type with
  | .unchanged => e.leftLine.isSome && e.rightLine.isSome
  | .modified => e.leftLine.isSome && e.rightLine.isSome
  | .added => e.leftLine.isNone && e.rightLine.isSome
  | .removed => e.leftLine.isSome && e.rightLine.isNone

theorem shape_removed_left (e : DiffEntry) (h : entryShape e = true)
    (ht : e.type = .removed) : e.leftLine.isSome = true := by
  rw [entryShape, ht, Bool.and_eq_true] at h
  exact h.1

theorem shape_added_right (e : DiffEntry) (h : entryShape e = true)
    (ht : e.type = .added) : e.rightLine.isSome = true := by
  rw [entryShape, ht, Bool.and_eq_true] at h
  exact h.2

/-- Every entry the backtracking walk emits satisfies the shape invariant,
and none of them is `modified`. -/
theorem backtrackAux_shape (dp : Nat → Nat → Nat) (a b : List Str) :
    ∀ (N i j : Nat), i + j ≤ N → ∀ e ∈ backtrackAux dp a b i j,
      entryShape e = true ∧ e.type ≠ .modified := by
  intro N
  induction N with
  | zero =>
    intro i j hN e he
    rw [backtrackAux, if_pos (by omega : i = 0 ∧ j = 0)] at he
    exact absurd he (List.not_mem_nil e)
  | succ N ihN =>
    intro i j hN e he
    rw [backtrackAux] at he
    split_ifs at he with h0 h1 h2
    · exact absurd he (List.not_mem_nil e)
    · rcases List.mem_append.mp he with he | he
      · exact ihN (i - 1) (j - 1) (by omega) e he
      · simp only [List.mem_singleton] at he
        subst he
        exact ⟨rfl, fun h => DiffType.noConfusion h⟩
    · rcases List.mem_append.mp he with he | he
      · exact ihN i (j - 1) (by omega) e he
      · simp only [List.mem_singleton] at he
        subst he
        exact ⟨rfl, fun h => DiffType.noConfusion h⟩
    · have hi : 0 < i := by
        rcases Nat.eq_zero_or_pos i with hz | hp
        · exact absurd ⟨by omega, Or.inl hz⟩ h2
        · exact hp
      rcases List.mem_append.mp he with he | he
      · exact ihN (i - 1) j (by omega) e he
      · simp only [List.mem_singleton] at he
        subst he
        exact ⟨rfl, fun h => DiffType.noConfusion h⟩

theorem entryShape_mkRemoved (x : DiffEntry) :
    entryShape (mkRemoved x) = x.leftLine.isSome := by
  show (x.leftLine.isSome && true) = _
  rw [Bool.and_true]

theorem entryShape_mkAdded (x : DiffEntry) :
    entryShape (mkAdded x) = x.rightLine.isSome := by
  show (true && x.rightLine.isSome) = _
  rw [Bool.true_and]

theorem entryShape_mkModified (mp : MatchPair) :
    entryShape (mkModified mp) =
      (mp.removed.leftLine.isSome && mp.added.rightLine.isSome) := rfl

/-- The block processor emits only well-shaped entries provided every
removed entry of the block carries a left line and every added entry a
right line. -/
theorem processBlock_shape (rem ad : List DiffEntry)
    (hrem : ∀ e ∈ rem, e.leftLine.isSome = true)
    (had : ∀ e ∈ ad, e.rightLine.isSome = true) :
    ∀ e ∈ processBlock rem ad, entryShape e = true := by
  intro e he
  rw [processBlock] at he
  rcases List.mem_append.mp he with he | he
  rcases List.mem_append.mp he with he | he
  · rw [unmatchedRemovedOut] at he
    rcases List.mem_map.mp he with ⟨r, hr, hre⟩
    have hrlt : r < rem.length :=
      List.mem_range.mp (List.mem_filter.mp hr).1
    have hmem : rem.getD r default ∈ rem := by
      rw [List.getD_eq_getElem rem default hrlt]
      exact List.getElem_mem hrlt
    subst hre
    rw [entryShape_mkRemoved]
    exact hrem _ hmem
  · rcases List.mem_map.mp he with ⟨mp, hmp, hme⟩
    have hmp' := findBestMatches_mem rem ad mp (List.mem_mergeSort.mp hmp)
    obtain ⟨hlt1, hlt2, hr1, hr2, _, _⟩ := hmp'
    have hmem1 : rem.getD mp.removedIdx default ∈ rem := by
      rw [List.getD_eq_getElem rem default hlt1]
      exact List.getElem_mem hlt1
    have hmem2 : ad.getD mp.addedIdx default ∈ ad := by
      rw [List.getD_eq_getElem ad default hlt2]
      exact List.getElem_mem hlt2
    subst hme
    have e1 : mp.removed.leftLine.isSome = true := by
      rw [hr1]; exact hrem _ hmem1
    have e2 : mp.added.rightLine.isSome = true := by
      rw [hr2]; exact had _ hmem2
    rw [entryShape_mkModified, e1, e2]
    rfl
  · rw [unmatchedAddedOut] at he
    rcases List.mem_map.mp he with ⟨r, hr, hre⟩
    have hrlt : r < ad.length :=
      List.mem_range.mp (List.mem_filter.mp hr).1
    have hmem : ad.getD r default ∈ ad := by
      rw [List.getD_eq_getElem ad default hrlt]
      exact List.getElem_mem hrlt
    subst hre
    rw [entryShape_mkAdded]
    exact had _ hmem

/-- The detector preserves the shape invariant. -/
theorem detectMods_shape : ∀ (N : Nat) (d : List DiffEntry), d.length ≤ N →
    (∀ e ∈ d, entryShape e = true) →
    ∀ e ∈ detectMods d, entryShape e = true := by
  intro N
  induction N with
  | zero =>
    intro d hN hd e he
    have hnil : d = [] := List.length_eq_zero.mp (by omega)
    subst hnil
    rw [detectMods] at he
    exact absurd he (List.not_mem_nil e)
  | succ N ihN =>
    intro d hN hd e he
    cases d with
    | nil =>
      rw [detectMods] at he
      exact absurd he (List.not_mem_nil e)
    | cons e0 tl =>
      have a1 := length_takeWhile_add_dropWhile isRemoved (e0 :: tl)
      have a2 := length_takeWhile_add_dropWhile isAdded
        ((e0 :: tl).dropWhile isRemoved)
      have hsubR : ∀ x ∈ (e0 :: tl).takeWhile isRemoved, x ∈ e0 :: tl :=
        fun x hx => (List.takeWhile_sublist isRemoved).mem hx
      have hsubD : ∀ x ∈ (e0 :: tl).dropWhile isRemoved, x ∈ e0 :: tl :=
        fun x hx => (List.dropWhile_sublist isRemoved).mem hx
      have hsubA : ∀ x ∈ ((e0 :: tl).dropWhile isRemoved).takeWhile isAdded,
          x ∈ e0 :: tl :=
        fun x hx => hsubD x ((List.takeWhile_sublist isAdded).mem hx)
      have hsubB : ∀ x ∈ ((e0 :: tl).dropWhile isRemoved).dropWhile isAdded,
          x ∈ e0 :: tl :=
        fun x hx => hsubD x ((List.dropWhile_sublist isAdded).mem hx)
      have hremL : ∀ x ∈ (e0 :: tl).takeWhile isRemoved,
          x.leftLine.isSome = true := by
        intro x hx
        refine shape_removed_left x (hd x (hsubR x hx)) ?_
        have := List.mem_takeWhile_imp hx
        simpa [isRemoved] using this
      have hadR : ∀ x ∈ ((e0 :: tl).dropWhile isRemoved).takeWhile isAdded,
          x.rightLine.isSome = true := by
        intro x hx
        refine shape_added_right x (hd x (hsubA x hx)) ?_
        have := List.mem_takeWhile_imp hx
        simpa [isAdded] using this
      rw [detectMods] at he
      split_ifs at he with h1 h2 h3
      · rcases List.mem_append.mp he with he | he
        · exact processBlock_shape _ _ hremL hadR e he
        · refine ihN _ ?_ (fun x hx => hd x (hsubB x hx)) e he
          have hp : 0 < ((e0 :: tl).takeWhile isRemoved).length :=
            List.length_pos.mpr h1.1
          simp only [List.length_cons] at a1 hN
          omega
      · rcases List.mem_append.mp he with he | he
        · rcases List.mem_map.mp he with ⟨x, hx, hxe⟩
          subst hxe
          rw [entryShape_mkRemoved]
          exact hremL x hx
        · refine ihN _ ?_ (fun x hx => hd x (hsubB x hx)) e he
          have hp : 0 < ((e0 :: tl).takeWhile isRemoved).length :=
            List.length_pos.mpr h2
          simp only [List.length_cons] at a1 hN
          omega
      · rcases List.mem_append.mp he with he | he
        · rcases List.mem_map.mp he with ⟨x, hx, hxe⟩
          subst hxe
          rw [entryShape_mkAdded]
          exact hadR x hx
        · refine ihN _ ?_ (fun x hx => hd x (hsubB x hx)) e he
          have hp : 0 <
              (((e0 :: tl).dropWhile isRemoved).takeWhile isAdded).length :=
            List.length_pos.mpr h3
          simp only [List.length_cons] at a1 hN
          omega
      · rcases List.mem_cons.mp he with he | he
        · rw [he]
          exact hd e0 (List.mem_cons_self e0 tl)
        · refine ihN tl ?_ (fun x hx => hd x (List.mem_cons_of_mem e0 hx)) e he
          simp only [List.length_cons] at hN
          omega

/-- C9: every entry produced by the aligner-plus-detector pipeline satisfies
the shape invariant: `unchanged` and `modified` entries have both line
numbers, `added` entries only `rightLine`, `removed` entries only
`leftLine`. -/
theorem pipeline_shape_invariant (a b : List Str) :
    (detectMods (backtrackDiff (computeLCS a b) a b)).all entryShape = true := by
  rw [List.all_eq_true]
  intro e he
  refine detectMods_shape
    (backtrackDiff (computeLCS a b) a b).length _ le_rfl ?_ e he
  intro x hx
  exact (backtrackAux_shape (computeLCS a b) a b
    (a.length + b.length) a.length b.length le_rfl x hx).1

/-! ### C10: modified entries carry similarity at least 0.4 -/

/-- Whenever `areSimilar` (with the default 0.4 threshold) judges a pair
similar, the ratio it returns is at least 0.4: the early `{true, 1}` returns
are trivially above it, and the final verdict is `ratio >= threshold` by
definition. -/
theorem areSimilar_ratio_ge (a b : Option Str)
    (h : (areSimilar a b).similar = true) :
    (0.4 : ℚ) ≤ (areSimilar a b).ratio := by
  simp only [areSimilar] at h ⊢
  split_ifs at h ⊢
  all_goals
    first
    | exact h
    | (show (0.4 : ℚ) ≤ 1; norm_num)
    | exact of_decide_eq_true h

theorem simMatrix_cases (removed added : List DiffEntry) (i j : Nat) :
    simMatrix removed added i j = 0 ∨
    ∃ r a, removed[i]? = some r ∧ added[j]? = some a ∧
      simMatrix removed added i j =
        (if (areSimilar r.leftContent a.rightContent).similar
         then (areSimilar r.leftContent a.rightContent).ratio else 0) := by
  rw [simMatrix]
  cases hri : removed[i]? with
  | none => exact Or.inl rfl
  | some r =>
    cases hai : added[j]? with
    | none => exact Or.inl rfl
    | some a => exact Or.inr ⟨r, a, rfl, rfl, rfl⟩

/-- A positive similarity-matrix entry is at least 0.4. -/
theorem simMatrix_pos_ge (removed added : List DiffEntry) (i j : Nat)
    (h : 0 < simMatrix removed added i j) :
    (0.4 : ℚ) ≤ simMatrix removed added i j := by
  rcases simMatrix_cases removed added i j with h0 | ⟨r, a, _, _, heq⟩
  · rw [h0] at h
    exact absurd h (lt_irrefl 0)
  · rw [heq] at h ⊢
    split_ifs at h ⊢ with hs
    · exact areSimilar_ratio_ge r.leftContent a.rightContent hs
    · exact absurd h (lt_irrefl 0)

/-- The detector's output contains a `modified` entry only with a
`similarity` field of at least 0.4, as long as the input has no `modified`
entries of its own. -/
theorem detectMods_threshold : ∀ (N : Nat) (d : List DiffEntry),
    d.length ≤ N → (∀ e ∈ d, e.type ≠ .modified) →
    ∀ e ∈ detectMods d, e.type = .modified →
      ∃ q, e.similarity = some q ∧ (0.4 : ℚ) ≤ q := by
  intro N
  induction N with
  | zero =>
    intro d hN hd e he
    have hnil : d = [] := List.length_eq_zero.mp (by omega)
    subst hnil
    rw [detectMods] at he
    exact absurd he (List.not_mem_nil e)
  | succ N ihN =>
    intro d hN hd e he ht
    cases d with
    | nil =>
      rw [detectMods] at he
      exact absurd he (List.not_mem_nil e)
    | cons e0 tl =>
      have a1 := length_takeWhile_add_dropWhile isRemoved (e0 :: tl)
      have a2 := length_takeWhile_add_dropWhile isAdded
        ((e0 :: tl).dropWhile isRemoved)
      have hsubD : ∀ x ∈ (e0 :: tl).dropWhile isRemoved, x ∈ e0 :: tl :=
        fun x hx => (List.dropWhile_sublist isRemoved).mem hx
      have hsubB : ∀ x ∈ ((e0 :: tl).dropWhile isRemoved).dropWhile isAdded,
          x ∈ e0 :: tl :=
        fun x hx => hsubD x ((List.dropWhile_sublist isAdded).mem hx)
      rw [detectMods] at he
      split_ifs at he with h1 h2 h3
      · rcases List.mem_append.mp he with he | he
        · rw [processBlock] at he
          rcases List.mem_append.mp he with he | he
          rcases List.mem_append.mp he with he | he
          · rw [unmatchedRemovedOut] at he
            rcases List.mem_map.mp he with ⟨r, _, hre⟩
            rw [← hre] at ht
            exact absurd ht (fun hc => DiffType.noConfusion hc)
          · rcases List.mem_map.mp he with ⟨mp, hmp, hme⟩
            have hmp' := findBestMatches_mem _ _ mp (List.mem_mergeSort.mp hmp)
            obtain ⟨_, _, _, _, hratio, hpos⟩ := hmp'
            refine ⟨mp.ratio, by rw [← hme]; rfl, ?_⟩
            rw [hratio] at hpos ⊢
            exact simMatrix_pos_ge _ _ _ _ hpos
          · rw [unmatchedAddedOut] at he
            rcases List.mem_map.mp he with ⟨r, _, hre⟩
            rw [← hre] at ht
            exact absurd ht (fun hc => DiffType.noConfusion hc)
        · refine ihN _ ?_ (fun x hx => hd x (hsubB x hx)) e he ht
          have hp : 0 < ((e0 :: tl).takeWhile isRemoved).length :=
            List.length_pos.mpr h1.1
          simp only [List.length_cons] at a1 hN
          omega
      · rcases List.mem_append.mp he with he | he
        · rcases List.mem_map.mp he with ⟨x, _, hxe⟩
          rw [← hxe] at ht
          exact absurd ht (fun hc => DiffType.noConfusion hc)
        · refine ihN _ ?_ (fun x hx => hd x (hsubB x hx)) e he ht
          have hp : 0 < ((e0 :: tl).takeWhile isRemoved).length :=
            List.length_pos.mpr h2
          simp only [List.length_cons] at a1 hN
          omega
      · rcases List.mem_append.mp he with he | he
        · rcases List.mem_map.mp he with ⟨x, _, hxe⟩
          rw [← hxe] at ht
          exact absurd ht (fun hc => DiffType.noConfusion hc)
        · refine ihN _ ?_ (fun x hx => hd x (hsubB x hx)) e he ht
          have hp : 0 <
              (((e0 :: tl).dropWhile isRemoved).takeWhile isAdded).length :=
            List.length_pos.mpr h3
          simp only [List.length_cons] at a1 hN
          omega
      · rcases List.mem_cons.mp he with he | he
        · rw [he] at ht
          exact absurd ht (hd e0 (List.mem_cons_self e0 tl))
        · refine ihN tl ?_ (fun x hx => hd x (List.mem_cons_of_mem e0 hx)) e he ht
          simp only [List.length_cons] at hN
          omega

/-- C10: every `modified` entry produced by the modification detector (on a
diff without pre-existing `modified` entries) carries a `similarity` of at
least the default threshold 0.4: only pairs judged similar enter the matrix
with a nonzero score and only positive scores are matched. -/
theorem modified_similarity_threshold (d : List DiffEntry)
    (hd : ∀ e ∈ d, e.type ≠ .modified) :
    ∀ e ∈ detectMods d, e.type = .modified →
      ∃ q, e.similarity = some q ∧ (0.4 : ℚ) ≤ q :=
  detectMods_threshold d.length d le_rfl hd

theorem modified_similarity_threshold_witness :
    (∀ e ∈ remW ++ adW, e.type ≠ .modified) ∧
    (∀ e ∈ detectMods (remW ++ adW), e.type = .modified →
      ∃ q, e.similarity = some q ∧ (0.4 : ℚ) ≤ q) :=
  ⟨by decide, modified_similarity_threshold (remW ++ adW) (by decide)⟩
